import Mathlib

/-!
# Verification of the image-to-text manifest codec

A shallow embedding of `app/image_to_text_full_v3.py` and the decoder
dispatch of `app/main.py`, together with proofs of the specified
properties of the codec.

Modelling conventions:
* Python `str` values are modelled as `List Char`; Python `bytes` as
  `List Nat` (each entry a byte value, `< 256` where it matters).
* Python exceptions are modelled by `Except` with one error constructor
  per distinct `raise` site (the sites raise `ValueError`s with distinct
  messages, `binascii.Error`, or `TypeError`; constructor identity models
  message/type identity).
* The imaging library (PIL) is an external collaborator: its outputs
  (image dimensions, quantized palettes, index buffers, alpha samples)
  enter the model as inputs of the encoder functions.
* `textwrap.wrap` is applied by the source only to base64 text (no
  whitespace, no hyphens); on such text it equals splitting into
  fixed-width pieces, which is how `pyWrap` is defined.
-/

/-! ## Basic character classes and string helpers -/

/-- ASCII whitespace as recognised by Python's `str.strip` / regex `\s`
(the manifests are ASCII, so the non-ASCII whitespace cases never arise). -/
def isPySpace (c : Char) : Bool :=
  c = ' ' ∨ c = '\t' ∨ c = '\n' ∨ c = '\r' ∨ c = '\x0b' ∨ c = '\x0c'

/-- ASCII decimal digit, as matched by regex `\d` on ASCII text. -/
def isPyDigit (c : Char) : Bool := '0' ≤ c ∧ c ≤ '9'

/-- Drop trailing elements satisfying `p` (helper for `pyStrip`). -/
def dropTrailing (p : Char → Bool) (l : List Char) : List Char :=
  (l.reverse.dropWhile p).reverse

/-- Python `str.strip()`: remove leading and trailing whitespace. -/
def pyStrip (l : List Char) : List Char :=
  dropTrailing isPySpace (l.dropWhile isPySpace)

/-- Python `s.replace("\n", "")`. -/
def removeNewlines (l : List Char) : List Char :=
  l.filter (fun c => c ≠ '\n')

/-- Split a text at newline characters, keeping empty segments
(the physical lines of the text; models line-oriented `^`/`$` matching
of Python's `re.M` and `str.splitlines` on `\n`-separated ASCII text). -/
def splitPhysLines : List Char → List (List Char)
  | [] => [[]]
  | c :: t =>
    if c = '\n' then [] :: splitPhysLines t
    else
      match splitPhysLines t with
      | [] => [[c]]
      | l :: ls => (c :: l) :: ls

theorem splitPhysLines_ne_nil (l : List Char) : splitPhysLines l ≠ [] := by
  induction l with
  | nil => simp [splitPhysLines]
  | cons c t ih =>
    simp only [splitPhysLines]
    split
    · simp
    · cases h : splitPhysLines t <;> simp

/-- A literal pattern occurs somewhere in a text (Python's `pat in s`,
and `re.search` for a literal pattern). -/
def occursIn (pat : List Char) : List Char → Bool
  | [] => pat.isPrefixOf []
  | l@(_ :: t) => pat.isPrefixOf l || occursIn pat t

/-! ### Toolkit lemmas about prefixes and occurrences -/

theorem isPrefixOf_eq_true_iff {α : Type} [DecidableEq α] (p l : List α) :
    p.isPrefixOf l = true ↔ ∃ t, p ++ t = l := by
  rw [List.isPrefixOf_iff_prefix]
  exact Iff.rfl

theorem occursIn_cons (pat : List Char) (c : Char) (t : List Char) :
    occursIn pat (c :: t) = (pat.isPrefixOf (c :: t) || occursIn pat t) := rfl

theorem occursIn_of_isPrefixOf {pat l : List Char}
    (h : pat.isPrefixOf l = true) : occursIn pat l = true := by
  cases l with
  | nil => simpa [occursIn] using h
  | cons c t => simp [occursIn_cons, h]

theorem occursIn_of_tail {pat : List Char} {c : Char} {t : List Char}
    (h : occursIn pat t = true) : occursIn pat (c :: t) = true := by
  simp [occursIn_cons, h]

/-- An occurrence gives an explicit decomposition of the text. -/
theorem occursIn_iff_decomp (pat l : List Char) :
    occursIn pat l = true ↔ ∃ a b, l = a ++ pat ++ b := by
  constructor
  · intro h
    induction l with
    | nil =>
      simp only [occursIn] at h
      rw [isPrefixOf_eq_true_iff] at h
      obtain ⟨t, ht⟩ := h
      exact ⟨[], t, by simp [← ht]⟩
    | cons c t ih =>
      rw [occursIn_cons, Bool.or_eq_true] at h
      rcases h with h | h
      · rw [isPrefixOf_eq_true_iff] at h
        obtain ⟨u, hu⟩ := h
        exact ⟨[], u, by simp [← hu]⟩
      · obtain ⟨a, b, hab⟩ := ih h
        exact ⟨c :: a, b, by simp [hab]⟩
  · rintro ⟨a, b, rfl⟩
    induction a with
    | nil =>
      apply occursIn_of_isPrefixOf
      rw [isPrefixOf_eq_true_iff]
      exact ⟨b, by simp⟩
    | cons c a ih => exact occursIn_of_tail ih

theorem mem_of_occursIn {pat l : List Char} (h : occursIn pat l = true)
    {c : Char} (hc : c ∈ pat) : c ∈ l := by
  obtain ⟨a, b, rfl⟩ := (occursIn_iff_decomp pat l).1 h
  simp [hc]

/-- If a pattern is a prefix of `u ++ ch :: w` then either the
distinguished character is inside the pattern or the pattern is already a
prefix of `u`. -/
theorem isPrefixOf_append_cons {pat : List Char} (ch : Char) :
    ∀ {u w : List Char}, pat.isPrefixOf (u ++ ch :: w) = true →
      ch ∈ pat ∨ pat.isPrefixOf u = true := by
  induction pat with
  | nil => intro u w _; right; cases u <;> rfl
  | cons p pt ih =>
    intro u w h
    cases u with
    | nil =>
      simp only [List.nil_append, List.isPrefixOf] at h
      have : p = ch := by
        by_contra hne
        simp [beq_eq_false_iff_ne.2 hne] at h
      left; simp [this]
    | cons u0 ut =>
      simp only [List.cons_append, List.isPrefixOf, Bool.and_eq_true, beq_iff_eq] at h
      obtain ⟨rfl, h2⟩ := h
      rcases ih h2 with hin | hpre
      · left; exact List.mem_cons_of_mem _ hin
      · right; simp [List.isPrefixOf, hpre]

/-- Splitting an occurrence across a distinguished character that the
pattern does not contain. -/
theorem occursIn_append_cons {pat : List Char} (ch : Char) (hch : ch ∉ pat) :
    ∀ {a b : List Char}, occursIn pat (a ++ ch :: b) = true →
      occursIn pat a = true ∨ occursIn pat b = true := by
  intro a
  induction a with
  | nil =>
    intro b h
    rw [List.nil_append, occursIn_cons, Bool.or_eq_true] at h
    rcases h with h | h
    · rcases isPrefixOf_append_cons (u := []) ch h with hin | hpre
      · exact absurd hin hch
      · left; exact occursIn_of_isPrefixOf hpre
    · right; exact h
  | cons c a ih =>
    intro b h
    rw [List.cons_append, occursIn_cons, Bool.or_eq_true] at h
    rcases h with h | h
    · rcases isPrefixOf_append_cons (u := c :: a) ch h with hin | hpre
      · exact absurd hin hch
      · left; exact occursIn_of_isPrefixOf hpre
    · rcases ih h with h1 | h2
      · left; exact occursIn_of_tail h1
      · right; exact h2

/-- If a pattern starts with a character absent from `lit` and does not
occur in `v`, it does not occur in `lit ++ v`. -/
theorem occursIn_append_head {p0 : Char} {pt lit v : List Char}
    (hlit : p0 ∉ lit) (hv : occursIn (p0 :: pt) v = false) :
    occursIn (p0 :: pt) (lit ++ v) = false := by
  induction lit with
  | nil => simpa
  | cons c l ih =>
    have hcne : p0 ≠ c := fun h => hlit (h ▸ List.mem_cons_self c l)
    rw [List.cons_append]
    rw [occursIn_cons]
    have h1 : (p0 :: pt).isPrefixOf (c :: (l ++ v)) = false := by
      simp [List.isPrefixOf, beq_eq_false_iff_ne.2 hcne]
    rw [h1, Bool.false_or]
    exact ih (fun h => hlit (List.mem_cons_of_mem _ h))

theorem occursIn_false_of_head_notMem {p0 : Char} {pt l : List Char}
    (h : p0 ∉ l) : occursIn (p0 :: pt) l = false := by
  have := @occursIn_append_head p0 pt l [] h (by rfl)
  simpa using this

/-! ## Run-length codec (`_rle_encode` / `_rle_decode`, lines 197-212)

Values and counts are Python ints, modelled as `Int`.  `_rle_encode`
starts a new run before a count would exceed `2^31 - 1`. -/

/-- Inner loop of `_rle_encode`: `prev` and `cnt` mirror the loop state. -/
def rleEncodeAux (prev : Int) (cnt : Int) : List Int → List (Int × Int)
  | [] => [(cnt, prev)]
  | v :: rest =>
    if v = prev ∧ cnt < 2 ^ 31 - 1 then rleEncodeAux prev (cnt + 1) rest
    else (cnt, prev) :: rleEncodeAux v 1 rest

/-- `_rle_encode(seq)`: greedy maximal runs, counts capped at `2^31 - 1`. -/
def rleEncode : List Int → List (Int × Int)
  | [] => []
  | v :: rest => rleEncodeAux v 1 rest

/-- `_rle_decode(pairs)`: expand each `(count, value)` pair; like Python's
`[val] * cnt`, a non-positive count contributes nothing. -/
def rleDecode (pairs : List (Int × Int)) : List Int :=
  pairs.flatMap (fun p => List.replicate p.1.toNat p.2)

theorem rleDecode_cons (c v : Int) (rest : List (Int × Int)) :
    rleDecode ((c, v) :: rest) = List.replicate c.toNat v ++ rleDecode rest := rfl

theorem rleDecode_rleEncodeAux (l : List Int) :
    ∀ (prev : Int) (cnt : Int), 1 ≤ cnt →
      rleDecode (rleEncodeAux prev cnt l) = List.replicate cnt.toNat prev ++ l := by
  induction l with
  | nil =>
    intro prev cnt _
    simp [rleEncodeAux, rleDecode]
  | cons v rest ih =>
    intro prev cnt hcnt
    rw [rleEncodeAux]
    split
    · rename_i hcond
      obtain ⟨heq, _⟩ := hcond
      subst heq
      rw [ih v (cnt + 1) (by omega)]
      have : (cnt + 1).toNat = cnt.toNat + 1 := by omega
      rw [this, List.replicate_succ']
      simp
    · rw [rleDecode_cons, ih v 1 (le_refl 1)]
      simp

/-- Round trip of the run-length codec. -/
theorem rleDecode_rleEncode (s : List Int) : rleDecode (rleEncode s) = s := by
  cases s with
  | nil => rfl
  | cons v rest =>
    rw [rleEncode, rleDecode_rleEncodeAux rest v 1 (le_refl 1)]
    simp

theorem length_rleDecode_of_pos (R : List (Int × Int))
    (h : ∀ p ∈ R, 0 < p.1) :
    ((rleDecode R).length : Int) = (R.map (fun p => p.1)).sum := by
  induction R with
  | nil => simp [rleDecode]
  | cons p rest ih =>
    obtain ⟨c, v⟩ := p
    rw [rleDecode_cons]
    have hc : 0 < c := h (c, v) (List.mem_cons_self _ _)
    have hrest := ih (fun q hq => h q (List.mem_cons_of_mem _ hq))
    simp only [List.length_append, List.length_replicate, List.map_cons, List.sum_cons]
    push_cast
    rw [hrest]
    have : ((c.toNat : Int)) = c := Int.toNat_of_nonneg hc.le
    omega

/-- The total count of an encoding equals the input length. -/
theorem sum_counts_rleEncodeAux (l : List Int) :
    ∀ (prev cnt : Int),
      ((rleEncodeAux prev cnt l).map (fun p => p.1)).sum = cnt + l.length := by
  induction l with
  | nil => intro prev cnt; simp [rleEncodeAux]
  | cons v rest ih =>
    intro prev cnt
    rw [rleEncodeAux]
    split
    · rw [ih]
      simp only [List.length_cons]
      push_cast
      ring
    · simp only [List.map_cons, List.sum_cons, ih, List.length_cons]
      push_cast
      ring

theorem sum_counts_rleEncode (s : List Int) :
    ((rleEncode s).map (fun p => p.1)).sum = s.length := by
  cases s with
  | nil => simp [rleEncode]
  | cons v rest =>
    rw [rleEncode, sum_counts_rleEncodeAux]
    simp only [List.length_cons]
    push_cast
    ring

/-- Every value in an encoding was a value of the input sequence. -/
theorem mem_of_mem_rleEncodeAux (l : List Int) :
    ∀ (prev cnt c v : Int), (c, v) ∈ rleEncodeAux prev cnt l →
      v = prev ∨ v ∈ l := by
  induction l with
  | nil =>
    intro prev cnt c v h
    simp [rleEncodeAux] at h
    left; exact h.2
  | cons w rest ih =>
    intro prev cnt c v h
    rw [rleEncodeAux] at h
    split at h
    · rename_i hcond
      rcases ih _ _ _ _ h with h1 | h2
      · left; exact hcond.1 ▸ h1
      · right; exact List.mem_cons_of_mem _ h2
    · rcases List.mem_cons.1 h with h1 | h2
      · left; exact (Prod.mk.injEq _ _ _ _ ▸ h1).2
      · rcases ih _ _ _ _ h2 with h3 | h4
        · right; exact h3 ▸ List.mem_cons_self _ _
        · right; exact List.mem_cons_of_mem _ h4

theorem mem_of_mem_rleEncode {s : List Int} {c v : Int}
    (h : (c, v) ∈ rleEncode s) : v ∈ s := by
  cases s with
  | nil => simp [rleEncode] at h
  | cons w rest =>
    rcases mem_of_mem_rleEncodeAux rest w 1 c v h with h1 | h2
    · exact h1 ▸ List.mem_cons_self _ _
    · exact List.mem_cons_of_mem _ h2

/-- All counts produced by the encoder are at least 1. -/
theorem pos_counts_rleEncodeAux (l : List Int) :
    ∀ (prev cnt : Int), 1 ≤ cnt → ∀ p ∈ rleEncodeAux prev cnt l, 1 ≤ p.1 := by
  induction l with
  | nil =>
    intro prev cnt hcnt p hp
    simp only [rleEncodeAux, List.mem_singleton] at hp
    rw [hp]
    exact hcnt
  | cons v rest ih =>
    intro prev cnt hcnt p hp
    rw [rleEncodeAux] at hp
    split at hp
    · exact ih _ _ (by omega) p hp
    · rcases List.mem_cons.1 hp with h1 | h2
      · simp [h1, hcnt]
      · exact ih _ _ (le_refl 1) p h2

theorem pos_counts_rleEncode (s : List Int) : ∀ p ∈ rleEncode s, 1 ≤ p.1 := by
  cases s with
  | nil => simp [rleEncode]
  | cons v rest => exact pos_counts_rleEncodeAux rest v 1 (le_refl 1)

/-! ## Quadrant boxes of the lossy-description tier

`encode_lossy_nlp_to_text` (lines 383-388) and
`decode_lossy_nlp_text_to_proxy_image` (lines 445-450) each build a
dictionary of four crop/fill boxes `(x0, y0, x1, y1)` by integer floor
bisection of the dimensions. -/

/-- The `quads` dictionary of the encoder (source lines 383-388). -/
def nlpEncodeQuads (w h : Nat) : List (List Char × (Nat × Nat × Nat × Nat)) :=
  [ ("top_left".toList,     (0,     0,     w / 2, h / 2)),
    ("top_right".toList,    (w / 2, 0,     w,     h / 2)),
    ("bottom_left".toList,  (0,     h / 2, w / 2, h)),
    ("bottom_right".toList, (w / 2, h / 2, w,     h)) ]

/-- The `quad_boxes` dictionary of the decoder (source lines 445-450). -/
def nlpDecodeQuadBoxes (w h : Nat) : List (List Char × (Nat × Nat × Nat × Nat)) :=
  [ ("top_left".toList,     (0,     0,     w / 2, h / 2)),
    ("top_right".toList,    (w / 2, 0,     w,     h / 2)),
    ("bottom_left".toList,  (0,     h / 2, w / 2, h)),
    ("bottom_right".toList, (w / 2, h / 2, w,     h)) ]

/-! ## Decimal rendering (`str(int)`) and parsing (`int(str)`) -/

/-- The decimal digit characters. -/
def decDigits : List Char := "0123456789".toList

/-- The digit character of `n % 10`. -/
def digitChar (n : Nat) : Char := decDigits.getD (n % 10) '0'

/-- Fuel-driven rendering of a natural number in decimal
(`str(n)` for a non-negative Python int). -/
def renderNatF : Nat → Nat → List Char
  | 0, _ => []
  | fuel + 1, n =>
    if n < 10 then [digitChar n]
    else renderNatF fuel (n / 10) ++ [digitChar (n % 10)]

/-- `str(n)` for `n : Nat`. -/
def renderNat (n : Nat) : List Char := renderNatF (n + 1) n

theorem renderNatF_fuel : ∀ (n f1 f2 : Nat), n < f1 → n < f2 →
    renderNatF f1 n = renderNatF f2 n := by
  intro n
  induction n using Nat.strong_induction_on with
  | _ n ih =>
    intro f1 f2 h1 h2
    match f1, f2 with
    | fa + 1, fb + 1 =>
      simp only [renderNatF]
      split
      · rfl
      · rename_i hge
        have hlt : n / 10 < n := Nat.div_lt_self (by omega) (by omega)
        rw [ih (n / 10) hlt fa fb (by omega) (by omega)]

theorem renderNat_eq_renderNatF {n f : Nat} (h : n < f) :
    renderNat n = renderNatF f n := renderNatF_fuel n (n + 1) f (Nat.lt_succ_self n) h

theorem digitChar_mem (n : Nat) : digitChar n ∈ decDigits := by
  have h : n % 10 < 10 := Nat.mod_lt _ (by omega)
  have : ∀ k < 10, decDigits.getD k '0' ∈ decDigits := by decide
  exact this _ h

theorem renderNatF_mem : ∀ (f n : Nat), ∀ c ∈ renderNatF f n, c ∈ decDigits := by
  intro f
  induction f with
  | zero => intro n c hc; simp [renderNatF] at hc
  | succ f ih =>
    intro n c hc
    simp only [renderNatF] at hc
    split at hc
    · simp only [List.mem_singleton] at hc
      exact hc ▸ digitChar_mem n
    · rcases List.mem_append.1 hc with h | h
      · exact ih _ _ h
      · simp only [List.mem_singleton] at h
        exact h ▸ digitChar_mem _

theorem renderNat_mem (n : Nat) : ∀ c ∈ renderNat n, c ∈ decDigits :=
  renderNatF_mem (n + 1) n

theorem renderNatF_ne_nil : ∀ (f n : Nat), n < f → renderNatF f n ≠ [] := by
  intro f n h
  match f with
  | fa + 1 =>
    simp only [renderNatF]
    split <;> simp

/-- Digit-sequence parser used to model Python's `int(str)` on the digit
part. -/
def parseDigitsAux (acc : Nat) : List Char → Option Nat
  | [] => some acc
  | c :: t => if isPyDigit c then parseDigitsAux (acc * 10 + (c.toNat - 48)) t else none

def parseDigits (l : List Char) : Option Nat :=
  match l with
  | [] => none
  | _ => parseDigitsAux 0 l

theorem parseDigitsAux_append (a b : List Char) : ∀ acc,
    parseDigitsAux acc (a ++ b) =
      match parseDigitsAux acc a with
      | some acc2 => parseDigitsAux acc2 b
      | none => none := by
  induction a with
  | nil => intro acc; rfl
  | cons c t ih =>
    intro acc
    simp only [List.cons_append, parseDigitsAux]
    split
    · exact ih _
    · rfl

theorem parseDigitsAux_renderNatF : ∀ (n : Nat), ∀ (f : Nat), n < f → ∀ acc,
    parseDigitsAux acc (renderNatF f n) =
      some (acc * 10 ^ (renderNatF f n).length + n) := by
  intro n
  induction n using Nat.strong_induction_on with
  | _ n ih =>
    intro f hf acc
    match f with
    | fa + 1 =>
      simp only [renderNatF]
      split
      · rename_i hlt
        have hd : isPyDigit (digitChar n) = true ∧ (digitChar n).toNat - 48 = n := by
          have : ∀ k < 10, isPyDigit (decDigits.getD k '0') = true ∧
              (decDigits.getD k '0').toNat - 48 = k := by decide
          have hmod : n % 10 = n := Nat.mod_eq_of_lt hlt
          simpa [digitChar, hmod] using this n hlt
        simp [parseDigitsAux, hd.1, hd.2]
      · rename_i hge
        have hlt10 : n / 10 < n := Nat.div_lt_self (by omega) (by omega)
        rw [parseDigitsAux_append]
        rw [ih (n / 10) hlt10 fa (by omega) acc]
        have hd : isPyDigit (digitChar (n % 10)) = true ∧
            (digitChar (n % 10)).toNat - 48 = n % 10 := by
          have : ∀ k < 10, isPyDigit (decDigits.getD k '0') = true ∧
              (decDigits.getD k '0').toNat - 48 = k := by decide
          have hmod : n % 10 % 10 = n % 10 := by omega
          simpa [digitChar] using this (n % 10) (Nat.mod_lt _ (by omega))
        simp only [parseDigitsAux, hd.1, if_pos, hd.2]
        have hlen : (renderNatF fa (n / 10) ++ [digitChar (n % 10)]).length =
            (renderNatF fa (n / 10)).length + 1 := by simp
        rw [hlen]
        congr 1
        have := Nat.div_add_mod n 10
        ring_nf
        omega

theorem parseDigits_renderNat (n : Nat) : parseDigits (renderNat n) = some n := by
  have hne := renderNatF_ne_nil (n + 1) n (Nat.lt_succ_self n)
  have hmain := parseDigitsAux_renderNatF n (n + 1) (Nat.lt_succ_self n) 0
  rw [renderNat]
  cases h : renderNatF (n + 1) n with
  | nil => exact absurd h hne
  | cons c t =>
    rw [parseDigits, ← h, hmain]
    all_goals simp

/-- Python `int(s)` (sign and surrounding whitespace handling; raises on
anything else, modelled as `none`). -/
def pyInt (l : List Char) : Option Int :=
  if (pyStrip l).head? = some '-' then
    (parseDigits (pyStrip l).tail).map (fun n => -(n : Int))
  else (parseDigits (pyStrip l)).map (fun n => (n : Int))

/-! ## Hexadecimal rendering and parsing -/

def hexDigitsLower : List Char := "0123456789abcdef".toList
def hexDigitsUpper : List Char := "0123456789ABCDEF".toList

/-- Lowercase hex digit of `n % 16` (used by `hexdigest()`). -/
def hexChar (n : Nat) : Char := hexDigitsLower.getD (n % 16) '0'

/-- Uppercase hex digit of `n % 16` (used by the `{:02X}` format). -/
def hexCharU (n : Nat) : Char := hexDigitsUpper.getD (n % 16) '0'

/-- Eight lowercase hex digits of a 32-bit word, most significant first. -/
def toHex8 (n : Nat) : List Char :=
  [hexChar (n / 16 ^ 7), hexChar (n / 16 ^ 6), hexChar (n / 16 ^ 5),
   hexChar (n / 16 ^ 4), hexChar (n / 16 ^ 3), hexChar (n / 16 ^ 2),
   hexChar (n / 16), hexChar n]

/-- `"{:02X}".format(n)` for a byte value `n < 256`. -/
def toHex2U (n : Nat) : List Char := [hexCharU (n / 16), hexCharU n]

theorem hexChar_mem (n : Nat) : hexChar n ∈ hexDigitsLower := by
  have h : n % 16 < 16 := Nat.mod_lt _ (by omega)
  have : ∀ k < 16, hexDigitsLower.getD k '0' ∈ hexDigitsLower := by decide
  exact this _ h

theorem toHex8_mem (n : Nat) : ∀ c ∈ toHex8 n, c ∈ hexDigitsLower := by
  intro c hc
  simp only [toHex8, List.mem_cons, List.mem_singleton, List.not_mem_nil, or_false] at hc
  rcases hc with h | h | h | h | h | h | h | h <;> exact h ▸ hexChar_mem _

/-- Hex digit value, accepting both cases (like Python's `int(s, 16)`). -/
def hexVal (c : Char) : Option Nat :=
  if '0' ≤ c ∧ c ≤ '9' then some (c.toNat - 48)
  else if 'a' ≤ c ∧ c ≤ 'f' then some (c.toNat - 87)
  else if 'A' ≤ c ∧ c ≤ 'F' then some (c.toNat - 55)
  else none

/-- `int(s, 16)` for a one- or two-character slice (the decoder slices
`hexcol[0:2]`, `hexcol[2:4]`, `hexcol[4:6]`). -/
def parseHexByte (l : List Char) : Option Nat :=
  match l with
  | [c1, c2] =>
    match hexVal c1, hexVal c2 with
    | some v1, some v2 => some (v1 * 16 + v2)
    | _, _ => none
  | [c1] => hexVal c1
  | _ => none

theorem hexVal_hexCharU (k : Nat) : hexVal (hexCharU k) = some (k % 16) := by
  have h : k % 16 < 16 := Nat.mod_lt _ (by omega)
  have hd : ∀ j < 16, hexVal (hexDigitsUpper.getD j '0') = some j := by decide
  have heq : hexCharU k = hexDigitsUpper.getD (k % 16) '0' := rfl
  rw [heq, hd _ h]

theorem parseHexByte_toHex2U (n : Nat) (h : n < 256) :
    parseHexByte (toHex2U n) = some n := by
  have h1 : n / 16 < 16 := by omega
  simp only [toHex2U, parseHexByte]
  rw [hexVal_hexCharU (n / 16), hexVal_hexCharU n]
  simp only [Nat.mod_eq_of_lt h1]
  congr 1
  omega

/-! ## Base64 (`base64.b64encode` / `base64.b64decode`)

Standard base64 with `=` padding.  `b64decode` models CPython's default
lenient mode: characters outside the alphabet and `=` are discarded, the
remaining length must be a multiple of four (else `binascii.Error`), and
residual bits of a padded final group are ignored. -/

def b64Alphabet : List Char :=
  "ABCDEFGHIJKLMNOPQRSTUVWXYZabcdefghijklmnopqrstuvwxyz0123456789+/".toList

/-- Character of a six-bit group. -/
def encChar (n : Nat) : Char := b64Alphabet.getD n 'A'

/-- `base64.b64encode`, three bytes at a time. -/
def b64Encode : List Nat → List Char
  | a :: b :: c :: rest =>
    let n := a * 65536 + b * 256 + c
    encChar (n / 262144) :: encChar (n / 4096 % 64) :: encChar (n / 64 % 64) ::
      encChar (n % 64) :: b64Encode rest
  | [] => []
  | [a] => [encChar (a / 4), encChar (a % 4 * 16), '=', '=']
  | [a, b] => [encChar (a / 4), encChar (a % 4 * 16 + b / 16), encChar (b % 16 * 4), '=']

/-- Index of a character in the alphabet. -/
def decValAux : List Char → Char → Nat → Option Nat
  | [], _, _ => none
  | a :: t, c, i => if a = c then some i else decValAux t c (i + 1)

def decVal (c : Char) : Option Nat := decValAux b64Alphabet c 0

/-- Decode a sequence of four-character groups (padding allowed only in
the final group; residual bits ignored, as CPython does). -/
def b64DecodeQuads : List Char → Option (List Nat)
  | [] => some []
  | w :: x :: y :: z :: rest =>
    if z = '=' then
      if rest ≠ [] then none
      else if y = '=' then
        match decVal w, decVal x with
        | some vw, some vx => some [(vw * 262144 + vx * 4096) / 65536]
        | _, _ => none
      else
        match decVal w, decVal x, decVal y with
        | some vw, some vx, some vy =>
          let n := vw * 262144 + vx * 4096 + vy * 64
          some [n / 65536, n / 256 % 256]
        | _, _, _ => none
    else
      match decVal w, decVal x, decVal y, decVal z with
      | some vw, some vx, some vy, some vz =>
        let n := vw * 262144 + vx * 4096 + vy * 64 + vz
        match b64DecodeQuads rest with
        | some bs => some (n / 65536 :: n / 256 % 256 :: n % 256 :: bs)
        | none => none
      | _, _, _, _ => none
  | _ => none

/-- `base64.b64decode(s)` (lenient mode). -/
def pyB64Decode (l : List Char) : Option (List Nat) :=
  let f := l.filter (fun c => c ∈ b64Alphabet ∨ c = '=')
  if f.length % 4 ≠ 0 then none else b64DecodeQuads f

theorem encChar_mem_of_lt : ∀ n < 64, encChar n ∈ b64Alphabet := by decide

theorem encChar_ne_pad : ∀ n < 64, encChar n ≠ '=' := by decide

theorem decVal_encChar : ∀ n < 64, decVal (encChar n) = some n := by decide

theorem b64Encode_mem (bs : List Nat) (hb : ∀ b ∈ bs, b < 256) :
    ∀ c ∈ b64Encode bs, c ∈ b64Alphabet ∨ c = '=' := by
  induction bs using b64Encode.induct with
  | case1 a b c rest ih =>
    intro ch hch
    have ha : a < 256 := hb a (by simp)
    have hbb : b < 256 := hb b (by simp)
    have hc : c < 256 := hb c (by simp)
    simp only [b64Encode, List.mem_cons] at hch
    rcases hch with h | h | h | h | h
    · left; exact h ▸ encChar_mem_of_lt _ (by omega)
    · left; exact h ▸ encChar_mem_of_lt _ (by omega)
    · left; exact h ▸ encChar_mem_of_lt _ (by omega)
    · left; exact h ▸ encChar_mem_of_lt _ (by omega)
    · exact ih (fun x hx => hb x (by simp [hx])) ch h
  | case2 =>
    intro ch hch
    simp [b64Encode] at hch
  | case3 a =>
    intro ch hch
    have ha : a < 256 := hb a (by simp)
    simp only [b64Encode, List.mem_cons, List.not_mem_nil, or_false] at hch
    rcases hch with h | h | h | h
    · left; exact h ▸ encChar_mem_of_lt _ (by omega)
    · left; exact h ▸ encChar_mem_of_lt _ (by omega)
    · right; exact h
    · right; exact h
  | case4 a b =>
    intro ch hch
    have ha : a < 256 := hb a (by simp)
    have hbb : b < 256 := hb b (by simp)
    simp only [b64Encode, List.mem_cons, List.not_mem_nil, or_false] at hch
    rcases hch with h | h | h | h
    · left; exact h ▸ encChar_mem_of_lt _ (by omega)
    · left; exact h ▸ encChar_mem_of_lt _ (by omega)
    · left; exact h ▸ encChar_mem_of_lt _ (by omega)
    · right; exact h

theorem b64Encode_length_mod (bs : List Nat) : (b64Encode bs).length % 4 = 0 := by
  induction bs using b64Encode.induct with
  | case1 a b c rest ih => simp only [b64Encode, List.length_cons]; omega
  | case2 => rfl
  | case3 a => simp [b64Encode]
  | case4 a b => simp [b64Encode]

theorem pad_not_mem_alphabet : '=' ∉ b64Alphabet := by decide

theorem b64DecodeQuads_b64Encode (bs : List Nat) (hb : ∀ b ∈ bs, b < 256) :
    b64DecodeQuads (b64Encode bs) = some bs := by
  induction bs using b64Encode.induct with
  | case1 a b c rest ih =>
    have ha : a < 256 := hb a (by simp)
    have hbb : b < 256 := hb b (by simp)
    have hc : c < 256 := hb c (by simp)
    have hrest := ih (fun x hx => hb x (by simp [hx]))
    simp only [b64Encode]
    set n := a * 65536 + b * 256 + c with hn
    have hnb : n < 16777216 := by omega
    have hz : encChar (n % 64) ≠ '=' := encChar_ne_pad _ (by omega)
    simp only [b64DecodeQuads, if_neg hz,
      decVal_encChar (n / 262144) (by omega), decVal_encChar (n / 4096 % 64) (by omega),
      decVal_encChar (n / 64 % 64) (by omega), decVal_encChar (n % 64) (by omega), hrest]
    have harith : n / 262144 * 262144 + n / 4096 % 64 * 4096 + n / 64 % 64 * 64 + n % 64 = n := by
      omega
    rw [harith]
    have h1 : n / 65536 = a := by omega
    have h2 : n / 256 % 256 = b := by omega
    have h3 : n % 256 = c := by omega
    rw [h1, h2, h3]
  | case2 => rfl
  | case3 a =>
    have ha : a < 256 := hb a (by simp)
    simp only [b64Encode, b64DecodeQuads, if_pos rfl,
      decVal_encChar (a / 4) (by omega), decVal_encChar (a % 4 * 16) (by omega)]
    simp only [ne_eq, not_true_eq_false, if_pos, ite_false, ite_true]
    congr 1
    have : a / 4 * 262144 + a % 4 * 16 * 4096 = a * 65536 := by omega
    rw [this]
    congr 1
    omega
  | case4 a b =>
    have ha : a < 256 := hb a (by simp)
    have hbb : b < 256 := hb b (by simp)
    have hy : encChar (b % 16 * 4) ≠ '=' := encChar_ne_pad _ (by omega)
    simp only [b64Encode, b64DecodeQuads, if_pos rfl, if_neg hy,
      decVal_encChar (a / 4) (by omega), decVal_encChar (a % 4 * 16 + b / 16) (by omega),
      decVal_encChar (b % 16 * 4) (by omega)]
    simp only [ne_eq, not_true_eq_false, ite_false, ite_true]
    congr 1
    have h1 : (a / 4 * 262144 + (a % 4 * 16 + b / 16) * 4096 + b % 16 * 4 * 64) / 65536 = a := by
      omega
    have h2 : (a / 4 * 262144 + (a % 4 * 16 + b / 16) * 4096 + b % 16 * 4 * 64) / 256 % 256 = b := by
      omega
    rw [h1, h2]

/-- Round trip of the base64 codec on byte buffers. -/
theorem pyB64Decode_b64Encode (bs : List Nat) (hb : ∀ b ∈ bs, b < 256) :
    pyB64Decode (b64Encode bs) = some bs := by
  have hfilter : (b64Encode bs).filter (fun c => c ∈ b64Alphabet ∨ c = '=') = b64Encode bs := by
    apply List.filter_eq_self.2
    intro c hc
    have := b64Encode_mem bs hb c hc
    simpa using this
  rw [pyB64Decode]
  simp only [hfilter, b64Encode_length_mod]
  simp [b64DecodeQuads_b64Encode bs hb]

/-! ## Fixed-size chunking

Models `[s[i:i+cs] for i in range(0, len(s), cs)]` for `cs ≥ 1` (the
source always calls it with a positive size), and `textwrap.wrap` on
whitespace-free text.  Fuel-driven so that evaluation is kernel-reducible;
`fuel = length` always suffices. -/

def chunksOfF {α : Type} (cs : Nat) : Nat → List α → List (List α)
  | _, [] => []
  | 0, l => [l]
  | fuel + 1, l => l.take cs :: chunksOfF cs fuel (l.drop cs)

/-- `[s[i:i+cs] for i in range(0, len(s), cs)]`. -/
def pyChunks {α : Type} (cs : Nat) (l : List α) : List (List α) :=
  chunksOfF cs l.length l

theorem chunksOfF_fuel {α : Type} (cs : Nat) (hcs : 1 ≤ cs) :
    ∀ (f1 : Nat) (l : List α) (f2 : Nat), l.length ≤ f1 → l.length ≤ f2 →
      chunksOfF cs f1 l = chunksOfF cs f2 l := by
  intro f1
  induction f1 with
  | zero =>
    intro l f2 h1 _
    have hl : l = [] := List.length_eq_zero.1 (Nat.le_zero.1 h1)
    subst hl
    cases f2 <;> rfl
  | succ fa ih =>
    intro l f2 h1 h2
    cases l with
    | nil => cases f2 <;> rfl
    | cons c t =>
      cases f2 with
      | zero => simp at h2
      | succ fb =>
        simp only [chunksOfF]
        congr 1
        apply ih
        · rw [List.length_drop]; simp only [List.length_cons] at h1 ⊢; omega
        · rw [List.length_drop]; simp only [List.length_cons] at h2 ⊢; omega

/-- Reassembling the chunks gives back the original list. -/
theorem chunksOfF_flatten {α : Type} (cs : Nat) (hcs : 1 ≤ cs) :
    ∀ (f : Nat) (l : List α), l.length ≤ f → (chunksOfF cs f l).flatten = l := by
  intro f
  induction f with
  | zero =>
    intro l h1
    have hl : l = [] := List.length_eq_zero.1 (Nat.le_zero.1 h1)
    subst hl; rfl
  | succ fa ih =>
    intro l h1
    cases l with
    | nil => rfl
    | cons c t =>
      simp only [chunksOfF, List.flatten_cons]
      rw [ih]
      · exact List.take_append_drop cs (c :: t)
      · rw [List.length_drop]; simp only [List.length_cons] at h1 ⊢; omega

theorem pyChunks_flatten {α : Type} (cs : Nat) (hcs : 1 ≤ cs) (l : List α) :
    (pyChunks cs l).flatten = l :=
  chunksOfF_flatten cs hcs l.length l (le_refl _)

/-- The number of chunks is the length divided by `cs`, rounded up. -/
theorem chunksOfF_length {α : Type} (cs : Nat) (hcs : 1 ≤ cs) :
    ∀ (f : Nat) (l : List α), l.length ≤ f →
      (chunksOfF cs f l).length = (l.length + cs - 1) / cs := by
  intro f
  induction f with
  | zero =>
    intro l h1
    have hl : l = [] := List.length_eq_zero.1 (Nat.le_zero.1 h1)
    subst hl
    simp only [chunksOfF, List.length_nil]
    rw [Nat.div_eq_of_lt (by omega)]
  | succ fa ih =>
    intro l h1
    cases l with
    | nil =>
      simp only [chunksOfF, List.length_nil]
      rw [Nat.div_eq_of_lt (by omega)]
    | cons c t =>
      simp only [chunksOfF, List.length_cons]
      rw [ih]
      · rw [List.length_drop]
        simp only [List.length_cons]
        rcases Nat.lt_or_ge (t.length + 1) cs with hlt | hge
        · have hL : (t.length + 1 - cs + cs - 1) / cs = 0 := by
            have h0 : t.length + 1 - cs = 0 := by omega
            rw [h0]; exact Nat.div_eq_of_lt (by omega)
          have hb : (t.length + 1 + cs - 1) / cs = 1 := by
            have hx : t.length + 1 + cs - 1 = t.length + 1 * cs := by omega
            rw [hx, Nat.add_mul_div_right _ _ (by omega : 0 < cs),
              Nat.div_eq_of_lt (by omega : t.length < cs)]
          rw [hL, hb]
        · have hx : t.length + 1 + cs - 1 = (t.length + 1 - cs + cs - 1) + 1 * cs := by omega
          rw [hx, Nat.add_mul_div_right _ _ (by omega : 0 < cs)]
      · rw [List.length_drop]; simp only [List.length_cons] at h1 ⊢; omega

theorem pyChunks_length {α : Type} (cs : Nat) (hcs : 1 ≤ cs) (l : List α) :
    (pyChunks cs l).length = (l.length + cs - 1) / cs :=
  chunksOfF_length cs hcs l.length l (le_refl _)

/-- Every element of a chunk is an element of the original list. -/
theorem chunksOfF_mem {α : Type} (cs : Nat) :
    ∀ (f : Nat) (l : List α), ∀ p ∈ chunksOfF cs f l, ∀ x ∈ p, x ∈ l := by
  intro f
  induction f with
  | zero =>
    intro l p hp x hx
    cases l with
    | nil => simp [chunksOfF] at hp
    | cons c t =>
      simp only [chunksOfF, List.mem_singleton] at hp
      exact hp ▸ hx
  | succ fa ih =>
    intro l p hp x hx
    cases l with
    | nil => simp [chunksOfF] at hp
    | cons c t =>
      simp only [chunksOfF, List.mem_cons] at hp
      rcases hp with h | h
      · exact (List.take_sublist cs (c :: t)).mem (h ▸ hx)
      · exact (List.drop_sublist cs (c :: t)).mem (ih _ p h x hx)

/-- Chunks of a nonempty list are nonempty (for positive chunk size). -/
theorem chunksOfF_ne_nil {α : Type} (cs : Nat) (hcs : 1 ≤ cs) :
    ∀ (f : Nat) (l : List α), l.length ≤ f → ∀ p ∈ chunksOfF cs f l, p ≠ [] := by
  intro f
  induction f with
  | zero =>
    intro l h1 p hp
    have hl : l = [] := List.length_eq_zero.1 (Nat.le_zero.1 h1)
    subst hl; simp [chunksOfF] at hp
  | succ fa ih =>
    intro l h1 p hp
    cases l with
    | nil => simp [chunksOfF] at hp
    | cons c t =>
      simp only [chunksOfF, List.mem_cons] at hp
      rcases hp with h | h
      · subst h
        cases cs with
        | zero => omega
        | succ k => simp
      · refine ih _ ?_ p h
        rw [List.length_drop]; simp only [List.length_cons] at h1 ⊢; omega

/-! ## SHA-256 and MD5 (`hashlib.sha256(...).hexdigest()`, `hashlib.md5(...).hexdigest()`)

Executable implementations of the two digests over byte lists,
with 32-bit words represented as `Nat` values reduced modulo `2^32`. -/

def M32 : Nat := 4294967296

/-- Rotate a 32-bit word right by `k` bits. -/
def rotr32 (k n : Nat) : Nat := n / 2 ^ k + n % 2 ^ k * 2 ^ (32 - k)

/-- Rotate a 32-bit word left by `k` bits. -/
def rotl32 (k n : Nat) : Nat := n % 2 ^ (32 - k) * 2 ^ k + n / 2 ^ (32 - k)

def wordBE (a b c d : Nat) : Nat := a * 16777216 + b * 65536 + c * 256 + d
def wordLE (a b c d : Nat) : Nat := d * 16777216 + c * 65536 + b * 256 + a

def bytesToWordsBE : List Nat → List Nat
  | a :: b :: c :: d :: rest => wordBE a b c d :: bytesToWordsBE rest
  | _ => []

def bytesToWordsLE : List Nat → List Nat
  | a :: b :: c :: d :: rest => wordLE a b c d :: bytesToWordsLE rest
  | _ => []

/-- Eight big-endian bytes of a 64-bit value. -/
def toBytesBE8 (n : Nat) : List Nat :=
  [n / 2 ^ 56 % 256, n / 2 ^ 48 % 256, n / 2 ^ 40 % 256, n / 2 ^ 32 % 256,
   n / 2 ^ 24 % 256, n / 2 ^ 16 % 256, n / 2 ^ 8 % 256, n % 256]

/-- Eight little-endian bytes of a 64-bit value. -/
def toBytesLE8 (n : Nat) : List Nat :=
  [n % 256, n / 2 ^ 8 % 256, n / 2 ^ 16 % 256, n / 2 ^ 24 % 256,
   n / 2 ^ 32 % 256, n / 2 ^ 40 % 256, n / 2 ^ 48 % 256, n / 2 ^ 56 % 256]

/-- Four little-endian bytes of a 32-bit word. -/
def toBytesLE4 (n : Nat) : List Nat :=
  [n % 256, n / 2 ^ 8 % 256, n / 2 ^ 16 % 256, n / 2 ^ 24 % 256]

/-- Merkle–Damgård padding: `0x80`, zeros to 56 mod 64, 8 length bytes. -/
def mdPad (lenBytes : Nat → List Nat) (msg : List Nat) : List Nat :=
  msg ++ 128 :: List.replicate ((119 - msg.length % 64) % 64) 0 ++
    lenBytes (msg.length * 8)

def shaK : List Nat :=
  [
   1116352408, 1899447441, 3049323471, 3921009573, 961987163, 1508970993,
   2453635748, 2870763221, 3624381080, 310598401, 607225278, 1426881987,
   1925078388, 2162078206, 2614888103, 3248222580, 3835390401, 4022224774,
   264347078, 604807628, 770255983, 1249150122, 1555081692, 1996064986,
   2554220882, 2821834349, 2952996808, 3210313671, 3336571891, 3584528711,
   113926993, 338241895, 666307205, 773529912, 1294757372, 1396182291,
   1695183700, 1986661051, 2177026350, 2456956037, 2730485921, 2820302411,
   3259730800, 3345764771, 3516065817, 3600352804, 4094571909, 275423344,
   430227734, 506948616, 659060556, 883997877, 958139571, 1322822218,
   1537002063, 1747873779, 1955562222, 2024104815, 2227730452, 2361852424,
   2428436474, 2756734187, 3204031479, 3329325298]

def shaH0 : List Nat :=
  [
   1779033703, 3144134277, 1013904242, 2773480762,
   1359893119, 2600822924, 528734635, 1541459225]

/-- Extend the 16 message words to 64 (`fuel` counts remaining words). -/
def shaExtend : Nat → List Nat → List Nat
  | 0, w => w
  | fuel + 1, w =>
    let i := w.length
    let w15 := w.getD (i - 15) 0
    let w2 := w.getD (i - 2) 0
    let s0 := rotr32 7 w15 ^^^ rotr32 18 w15 ^^^ w15 / 8
    let s1 := rotr32 17 w2 ^^^ rotr32 19 w2 ^^^ w2 / 1024
    shaExtend fuel (w ++ [(w.getD (i - 16) 0 + s0 + w.getD (i - 7) 0 + s1) % M32])

def shaRound (w : List Nat) (st : List Nat) (i : Nat) : List Nat :=
  match st with
  | [a, b, c, d, e, f, g, h] =>
    let s1 := rotr32 6 e ^^^ rotr32 11 e ^^^ rotr32 25 e
    let ch := e &&& f ^^^ ((e ^^^ 4294967295) &&& g)
    let t1 := (h + s1 + ch + shaK.getD i 0 + w.getD i 0) % M32
    let s0 := rotr32 2 a ^^^ rotr32 13 a ^^^ rotr32 22 a
    let mj := a &&& b ^^^ (a &&& c) ^^^ (b &&& c)
    let t2 := (s0 + mj) % M32
    [(t1 + t2) % M32, a, b, c, (d + t1) % M32, e, f, g]
  | st => st

def shaCompress (H : List Nat) (block : List Nat) : List Nat :=
  let w := shaExtend 48 (bytesToWordsBE block)
  let st := (List.range 64).foldl (shaRound w) H
  List.zipWith (fun x y => (x + y) % M32) H st

/-- `hashlib.sha256(msg).hexdigest()`. -/
def sha256Hex (msg : List Nat) : List Char :=
  let padded := mdPad toBytesBE8 msg
  let blocks := pyChunks 64 padded
  (blocks.foldl shaCompress shaH0).flatMap toHex8

def md5K : List Nat :=
  [0xd76aa478, 0xe8c7b756, 0x242070db, 0xc1bdceee, 0xf57c0faf, 0x4787c62a, 0xa8304613, 0xfd469501,
   0x698098d8, 0x8b44f7af, 0xffff5bb1, 0x895cd7be, 0x6b901122, 0xfd987193, 0xa679438e, 0x49b40821,
   0xf61e2562, 0xc040b340, 0x265e5a51, 0xe9b6c7aa, 0xd62f105d, 0x02441453, 0xd8a1e681, 0xe7d3fbc8,
   0x21e1cde6, 0xc33707d6, 0xf4d50d87, 0x455a14ed, 0xa9e3e905, 0xfcefa3f8, 0x676f02d9, 0x8d2a4c8a,
   0xfffa3942, 0x8771f681, 0x6d9d6122, 0xfde5380c, 0xa4beea44, 0x4bdecfa9, 0xf6bb4b60, 0xbebfbc70,
   0x289b7ec6, 0xeaa127fa, 0xd4ef3085, 0x04881d05, 0xd9d4d039, 0xe6db99e5, 0x1fa27cf8, 0xc4ac5665,
   0xf4292244, 0x432aff97, 0xab9423a7, 0xfc93a039, 0x655b59c3, 0x8f0ccc92, 0xffeff47d, 0x85845dd1,
   0x6fa87e4f, 0xfe2ce6e0, 0xa3014314, 0x4e0811a1, 0xf7537e82, 0xbd3af235, 0x2ad7d2bb, 0xeb86d391]

def md5S : List Nat :=
  [7, 12, 17, 22, 7, 12, 17, 22, 7, 12, 17, 22, 7, 12, 17, 22,
   5, 9, 14, 20, 5, 9, 14, 20, 5, 9, 14, 20, 5, 9, 14, 20,
   4, 11, 16, 23, 4, 11, 16, 23, 4, 11, 16, 23, 4, 11, 16, 23,
   6, 10, 15, 21, 6, 10, 15, 21, 6, 10, 15, 21, 6, 10, 15, 21]

def md5Round (M : List Nat) (st : List Nat) (i : Nat) : List Nat :=
  match st with
  | [a, b, c, d] =>
    let f :=
      if i < 16 then b &&& c ||| ((b ^^^ 4294967295) &&& d)
      else if i < 32 then d &&& b ||| ((d ^^^ 4294967295) &&& c)
      else if i < 48 then b ^^^ c ^^^ d
      else c ^^^ (b ||| (d ^^^ 4294967295))
    let g :=
      if i < 16 then i
      else if i < 32 then (5 * i + 1) % 16
      else if i < 48 then (3 * i + 5) % 16
      else 7 * i % 16
    let f2 := (f + a + md5K.getD i 0 + M.getD g 0) % M32
    [d, (b + rotl32 (md5S.getD i 0) f2) % M32, b, c]
  | st => st

def md5Compress (st : List Nat) (block : List Nat) : List Nat :=
  let M := bytesToWordsLE block
  let r := (List.range 64).foldl (md5Round M) st
  List.zipWith (fun x y => (x + y) % M32) st r

/-- One byte as two lowercase hex digits. -/
def byteHex (b : Nat) : List Char := [hexChar (b / 16), hexChar b]

/-- `hashlib.md5(msg).hexdigest()`. -/
def md5Hex (msg : List Nat) : List Char :=
  let padded := mdPad toBytesLE8 msg
  let blocks := pyChunks 64 padded
  let st := blocks.foldl md5Compress [0x67452301, 0xefcdab89, 0x98badcfe, 0x10325476]
  st.flatMap (fun w => (toBytesLE4 w).flatMap byteHex)

/-- Digest outputs use only lowercase hex characters. -/
theorem sha256Hex_mem (msg : List Nat) : ∀ c ∈ sha256Hex msg, c ∈ hexDigitsLower := by
  intro c hc
  simp only [sha256Hex, List.mem_flatMap] at hc
  obtain ⟨w, _, hw⟩ := hc
  exact toHex8_mem w c hw

theorem byteHex_mem (b : Nat) : ∀ c ∈ byteHex b, c ∈ hexDigitsLower := by
  intro c hc
  simp only [byteHex, List.mem_cons, List.mem_singleton, List.not_mem_nil, or_false] at hc
  rcases hc with h | h <;> exact h ▸ hexChar_mem _

theorem md5Hex_mem (msg : List Nat) : ∀ c ∈ md5Hex msg, c ∈ hexDigitsLower := by
  intro c hc
  simp only [md5Hex, List.mem_flatMap] at hc
  obtain ⟨w, _, hw⟩ := hc
  obtain ⟨b, _, hb⟩ := hw
  exact byteHex_mem b c hb

set_option maxRecDepth 100000 in
example : sha256Hex [] = "e3b0c44298fc1c149afbf4c8996fb92427ae41e4649b934ca495991b7852b855".toList := by
  decide

set_option maxRecDepth 100000 in
example : sha256Hex [97, 98, 99] =
    "ba7816bf8f01cfea414140de5dae2223b00361a396177a9cb410ff61f20015ad".toList := by
  decide

set_option maxRecDepth 100000 in
example : md5Hex [] = "d41d8cd98f00b204e9800998ecf8427e".toList := by decide

set_option maxRecDepth 100000 in
example : md5Hex [97, 98, 99] = "900150983cd24fb0d6963f7d28e17f72".toList := by decide

/-! ## Wrapping and joining -/

/-- `"\n".join(lines)`. -/
def joinNl : List (List Char) → List Char
  | [] => []
  | [a] => a
  | a :: rest => a ++ '\n' :: joinNl rest

/-- `_wrap(s, w)` (source lines 23-25): `textwrap.wrap` chops
whitespace-free text into `w`-character pieces, joined by newlines. -/
def pyWrap (w : Nat) (s : List Char) : List Char :=
  joinNl (pyChunks w s)

theorem joinNl_cons_cons (a b : List Char) (t : List (List Char)) :
    joinNl (a :: b :: t) = a ++ '\n' :: joinNl (b :: t) := rfl

theorem joinNl_mem : ∀ (ls : List (List Char)), ∀ c ∈ joinNl ls,
    (∃ p ∈ ls, c ∈ p) ∨ c = '\n' := by
  intro ls
  induction ls with
  | nil => intro c hc; simp [joinNl] at hc
  | cons a rest ih =>
    intro c hc
    cases rest with
    | nil =>
      left
      exact ⟨a, List.mem_cons_self _ _, hc⟩
    | cons b t =>
      rw [joinNl_cons_cons] at hc
      rcases List.mem_append.1 hc with h | h
      · left; exact ⟨a, List.mem_cons_self _ _, h⟩
      · rcases List.mem_cons.1 h with h1 | h2
        · right; exact h1
        · rcases ih c h2 with ⟨p, hp, hcp⟩ | h3
          · left; exact ⟨p, List.mem_cons_of_mem _ hp, hcp⟩
          · right; exact h3

theorem pyWrap_mem (w : Nat) (s : List Char) :
    ∀ c ∈ pyWrap w s, c ∈ s ∨ c = '\n' := by
  intro c hc
  rcases joinNl_mem _ c hc with ⟨p, hp, hcp⟩ | h
  · left; exact chunksOfF_mem w s.length s p hp c hcp
  · right; exact h

/-- Stripping a list with no whitespace characters is the identity. -/
theorem pyStrip_eq_self {l : List Char} (h : ∀ c ∈ l, isPySpace c = false) :
    pyStrip l = l := by
  have h1 : l.dropWhile isPySpace = l := by
    cases l with
    | nil => rfl
    | cons c t => rw [List.dropWhile_cons_of_neg (by simp [h c (List.mem_cons_self _ _)])]
  rw [pyStrip, h1, dropTrailing]
  have h2 : l.reverse.dropWhile isPySpace = l.reverse := by
    cases hr : l.reverse with
    | nil => rfl
    | cons c t =>
      rw [List.dropWhile_cons_of_neg]
      simp only [Bool.not_eq_true]
      apply h
      rw [← List.mem_reverse, hr]
      exact List.mem_cons_self _ _
  rw [h2, List.reverse_reverse]

theorem removeNewlines_append (a b : List Char) :
    removeNewlines (a ++ b) = removeNewlines a ++ removeNewlines b := by
  simp [removeNewlines]

theorem removeNewlines_eq_self {l : List Char} (h : '\n' ∉ l) :
    removeNewlines l = l := by
  apply List.filter_eq_self.2
  intro c hc
  simp only [ne_eq, decide_eq_true_eq]
  exact fun he => h (he ▸ hc)

/-- Undoing the word wrap: removing newlines from wrapped text recovers
the original newline-free text. -/
theorem removeNewlines_pyWrap (w : Nat) (hw : 1 ≤ w) (s : List Char)
    (hs : '\n' ∉ s) : removeNewlines (pyWrap w s) = s := by
  rw [pyWrap]
  have hjoin : ∀ (ls : List (List Char)), (∀ p ∈ ls, '\n' ∉ p) →
      removeNewlines (joinNl ls) = ls.flatten := by
    intro ls
    induction ls with
    | nil => intro _; rfl
    | cons a rest ih =>
      intro hnl
      cases rest with
      | nil =>
        simp only [joinNl, List.flatten_cons, List.flatten_nil, List.append_nil]
        exact removeNewlines_eq_self (hnl a (List.mem_cons_self _ _))
      | cons b t =>
        rw [joinNl_cons_cons, removeNewlines_append]
        have hstep : removeNewlines ('\n' :: joinNl (b :: t)) =
            removeNewlines (joinNl (b :: t)) := by
          simp [removeNewlines]
        rw [hstep, removeNewlines_eq_self (hnl a (List.mem_cons_self _ _)),
          ih (fun p hp => hnl p (List.mem_cons_of_mem _ hp))]
        simp
  rw [hjoin]
  · exact pyChunks_flatten w hw s
  · intro p hp hnlp
    exact hs (chunksOfF_mem w s.length s p hp '\n' hnlp)

/-! ## Physical-line decompositions -/

theorem splitPhysLines_append_nl (a b : List Char) :
    splitPhysLines (a ++ '\n' :: b) = splitPhysLines a ++ splitPhysLines b := by
  induction a with
  | nil => simp [splitPhysLines]
  | cons c t ih =>
    rw [List.cons_append]
    by_cases hc : c = '\n'
    · subst hc
      have h1 : splitPhysLines ('\n' :: (t ++ '\n' :: b)) =
          [] :: splitPhysLines (t ++ '\n' :: b) := by simp [splitPhysLines]
      have h2 : splitPhysLines ('\n' :: t) = [] :: splitPhysLines t := by
        simp [splitPhysLines]
      rw [h1, h2, ih, List.cons_append]
    · cases hsp : splitPhysLines t with
      | nil => exact absurd hsp (splitPhysLines_ne_nil t)
      | cons l ls =>
        have hsp2 : splitPhysLines (t ++ '\n' :: b) = l :: (ls ++ splitPhysLines b) := by
          rw [ih, hsp]; simp
        simp only [splitPhysLines, if_neg hc, hsp, hsp2]
        simp

theorem splitPhysLines_joinNl : ∀ (ls : List (List Char)), ls ≠ [] →
    splitPhysLines (joinNl ls) = ls.flatMap splitPhysLines := by
  intro ls
  induction ls with
  | nil => intro h; exact absurd rfl h
  | cons a rest ih =>
    intro _
    cases rest with
    | nil => simp [joinNl, List.flatMap_cons]
    | cons b t =>
      rw [joinNl_cons_cons, splitPhysLines_append_nl, ih (by simp)]
      simp [List.flatMap_cons]

/-- A line without newlines is its own single physical line. -/
theorem splitPhysLines_eq_self {l : List Char} (h : '\n' ∉ l) :
    splitPhysLines l = [l] := by
  induction l with
  | nil => rfl
  | cons c t ih =>
    have hc : c ≠ '\n' := fun he => h (he ▸ List.mem_cons_self _ _)
    simp only [splitPhysLines, if_neg hc]
    rw [ih (fun ht => h (List.mem_cons_of_mem _ ht))]

/-! ## Lossless manifest encoder
(`encode_lossless_to_manifest`, source lines 89-158) -/

/-- Image metadata extracted by PIL (external collaborator): the fields
whose formatted representation appears in the manifest header.  The
`dpiX`/`dpiY`/`exifOrientation`/`software` fields are modelled in their
rendered form (the string printed after the colon, `"null"` when the
optional value is absent) since they are produced by PIL. -/
structure LosslessMeta where
  filename : List Char
  mimeType : List Char
  width : Nat
  height : Nat
  colorMode : List Char
  bitDepth : Nat
  dpiX : List Char
  dpiY : List Char
  hasAlpha : Bool
  exifOrientation : List Char
  software : List Char
  iccB64 : Option (List Char)
  exifBytes : Option (List Nat)

/-- Python truthiness of an optional string/bytes value
(`if icc_b64:` / `if exif_bytes:`): truthy iff present and nonempty. -/
def pyTruthy {α : Type} : Option (List α) → Bool
  | some (_ :: _) => true
  | _ => false

def pyBool (b : Bool) : List Char :=
  if b then "true".toList else "false".toList

/-- The header block (source lines 110-134). -/
def headerLines (blob : List Nat) (meta : LosslessMeta) (source : List Char)
    (chunkCount : Nat) (lineWidth : Nat) : List (List Char) :=
  [ "LOSSLESS MANIFEST v2".toList,
    "source: ".toList ++ source,
    "filename: ".toList ++ meta.filename,
    "mime_type: ".toList ++ meta.mimeType,
    "filesize_bytes: ".toList ++ renderNat blob.length,
    "width: ".toList ++ renderNat meta.width,
    "height: ".toList ++ renderNat meta.height,
    "color_mode: ".toList ++ meta.colorMode,
    "bit_depth: ".toList ++ renderNat meta.bitDepth,
    "dpi_x: ".toList ++ meta.dpiX,
    "dpi_y: ".toList ++ meta.dpiY,
    "has_alpha: ".toList ++ pyBool meta.hasAlpha,
    "exif_orientation: ".toList ++ meta.exifOrientation,
    "software: ".toList ++ meta.software,
    "sha256: ".toList ++ sha256Hex blob,
    "md5: ".toList ++ md5Hex blob,
    "icc_profile_b64_present: ".toList ++ pyBool (pyTruthy meta.iccB64),
    "exif_b64_present: ".toList ++ pyBool (pyTruthy meta.exifBytes),
    [],
    "chunk_count: ".toList ++ renderNat chunkCount,
    "chunk_encoding: base64".toList,
    "chunk_line_width: ".toList ++ renderNat lineWidth,
    [] ]

/-- The chunk blocks (source lines 136-138); `i` counts from 1. -/
def bodyLines (lineWidth : Nat) (total : Nat) : Nat → List (List Char) → List (List Char)
  | _, [] => []
  | i, c :: rest =>
    ("CHUNK ".toList ++ renderNat i ++ '/' :: renderNat total) ::
      pyWrap lineWidth c :: "END CHUNK".toList :: [] ::
        bodyLines lineWidth total (i + 1) rest

/-- The optional ICC/EXIF blocks (source lines 140-145). -/
def extraLines (lineWidth : Nat) (meta : LosslessMeta) : List (List Char) :=
  (if pyTruthy meta.iccB64 then
     ["ICC_PROFILE_START".toList, pyWrap lineWidth (meta.iccB64.getD []),
      "ICC_PROFILE_END".toList, []]
   else []) ++
  (if pyTruthy meta.exifBytes then
     ["EXIF_START".toList, pyWrap lineWidth (b64Encode (meta.exifBytes.getD [])),
      "EXIF_END".toList, []]
   else [])

/-- The fixed footer (source lines 147-154). -/
def instrLines : List (List Char) :=
  [ "RECONSTRUCT_INSTRUCTIONS:".toList,
    "1) Concatenate CHUNKs in order.".toList,
    "2) Base64-decode to bytes.".toList,
    "3) Verify SHA-256 matches \"sha256\" (md5 provided for convenience).".toList,
    "4) Save bytes as \"filename\" with \"mime_type\". (All metadata is preserved because bytes are original.)".toList,
    "EOF".toList ]

/-- `encode_lossless_to_manifest`: the manifest text.  `blob` is the raw
file bytes; `meta` the PIL-extracted metadata. -/
def encodeLossless (blob : List Nat) (meta : LosslessMeta) (source : List Char)
    (chunkSize : Nat) (lineWidth : Nat) : List Char :=
  joinNl (headerLines blob meta source (pyChunks chunkSize (b64Encode blob)).length lineWidth ++
    (bodyLines lineWidth (pyChunks chunkSize (b64Encode blob)).length 1
        (pyChunks chunkSize (b64Encode blob)) ++
      (extraLines lineWidth meta ++ instrLines)))

/-! ## Lossless manifest parser and decoder
(`decode_lossless_manifest_to_image`, source lines 160-182) -/

/-- One header-line lookup, modelling
`re.search(r"^key:\s*(.+)$", text, re.M)` followed by `.strip()`:
the first physical line starting with `key:` whose remainder is nonempty
yields the stripped remainder.  (When the remainder of such a line is
empty or all-whitespace, the Python pattern can also consume the newline
with `\s*` and capture a later line; generated manifests always carry a
space and a nonempty value after the colon, so that corner is modelled
as a failed lookup.) -/
def grabValue (key : List Char) : List (List Char) → Option (List Char)
  | [] => none
  | l :: ls =>
    if (key ++ [':']).isPrefixOf l then
      let r := l.drop (key.length + 1)
      if r = [] then none else some (pyStrip r)
    else grabValue key ls

def pyGrab (key : List Char) (text : List Char) : Option (List Char) :=
  grabValue key (splitPhysLines text)

/-- The chunk-block opener `CHUNK\s+\d+/\d+\s*\n` of the block regex
(source line 170): on success, returns the remainder after the last
newline of the trailing whitespace run (backtracking semantics of
`\s*\n`). -/
def chunkStart (l : List Char) : Option (List Char) :=
  if "CHUNK".toList.isPrefixOf l then
    let r0 := l.drop 5
    let ws1 := r0.takeWhile isPySpace
    let r1 := r0.dropWhile isPySpace
    if ws1 = [] then none else
    let d1 := r1.takeWhile isPyDigit
    let r2 := r1.dropWhile isPyDigit
    if d1 = [] then none else
    match r2 with
    | '/' :: r3 =>
      let d2 := r3.takeWhile isPyDigit
      let r4 := r3.dropWhile isPyDigit
      if d2 = [] then none else
      let wsr := r4.takeWhile isPySpace
      let r5 := r4.dropWhile isPySpace
      let afterNl := (wsr.reverse.takeWhile (fun c => c ≠ '\n')).reverse
      if afterNl.length = wsr.length then none
      else some (afterNl ++ r5)
    | _ => none
  else none

/-- Split a text at the first occurrence of a literal pattern. -/
def splitOnFirst (pat : List Char) : List Char → Option (List Char × List Char)
  | [] => if pat = [] then some ([], []) else none
  | l@(c :: t) =>
    if pat.isPrefixOf l then some ([], l.drop pat.length)
    else
      match splitOnFirst pat t with
      | some (a, b) => some (c :: a, b)
      | none => none

/-- The closing delimiter `\nEND CHUNK` of the non-greedy capture. -/
def endMarker : List Char := '\n' :: "END CHUNK".toList

/-- `re.findall(r"CHUNK\s+\d+/\d+\s*\n(.*?)\nEND CHUNK", text, re.S)`:
scan left to right; at the first position where the opener matches and a
closing `\nEND CHUNK` follows, capture the text between them and resume
after the match.  An opener with no closing delimiter anywhere after it
ends the scan (no later opener can complete either).  Fuel-driven
(`fuel = length` suffices) so evaluation is kernel-reducible. -/
def findBlocksF : Nat → List Char → List (List Char)
  | 0, _ => []
  | fuel + 1, l =>
    match l with
    | [] => []
    | _ :: t =>
      match chunkStart l with
      | some rest =>
        match splitOnFirst endMarker rest with
        | some (body, after) => body :: findBlocksF fuel after
        | none => []
      | none => findBlocksF fuel t

def findBlocks (l : List Char) : List (List Char) := findBlocksF l.length l

/-- The distinct failure modes of `decode_lossless_manifest_to_image`,
one per raise site (`int()` `ValueError`, the two explicit `ValueError`s
with distinct messages, `binascii.Error`, and the `TypeError` from
`os.path.join(output_dir, None)`). -/
inductive LosslessErr where
  | badChunkCountLiteral
  | chunkCountMismatch
  | badBase64
  | shaMismatch
  | missingFilename
  deriving DecidableEq

structure LosslessOut where
  filename : List Char
  mimeType : Option (List Char)
  blob : List Nat
  deriving DecidableEq

/-- The raw chunk-count literal: `grab("chunk_count") or "0"` (a missing
or empty lookup is falsy). -/
def declaredChunkCountRaw (text : List Char) : List Char :=
  match pyGrab "chunk_count".toList text with
  | none => "0".toList
  | some [] => "0".toList
  | some v => v

/-- `"".join(x.replace("\n", "").strip() for x in blocks)`. -/
def reassembledB64 (text : List Char) : List Char :=
  ((findBlocks text).map (fun b => pyStrip (removeNewlines b))).flatten

/-- `decode_lossless_manifest_to_image` up to the file write: header
lookups, chunk extraction, count check, whitespace-stripping reassembly,
base64 decode, digest check, output-name resolution. -/
def decodeLossless (text : List Char) : Except LosslessErr LosslessOut :=
  match pyInt (declaredChunkCountRaw text) with
  | none => .error .badChunkCountLiteral
  | some cc =>
    if (((findBlocks text).length : Int)) ≠ cc then .error .chunkCountMismatch
    else
      match pyB64Decode (reassembledB64 text) with
      | none => .error .badBase64
      | some blob =>
        match pyGrab "sha256".toList text with
        | some s =>
          if sha256Hex blob ≠ s then .error .shaMismatch
          else
            match pyGrab "filename".toList text with
            | none => .error .missingFilename
            | some fn => .ok ⟨fn, pyGrab "mime_type".toList text, blob⟩
        | none => .error .shaMismatch

/-- The file writes performed by a decode call: the output file is opened
and written only on the success path (after both integrity checks). -/
def decodeLosslessWrites (text : List Char) : List (List Char × List Nat) :=
  match decodeLossless text with
  | .ok r => [(r.filename, r.blob)]
  | .error _ => []

/-! ## Parser metatheory -/

theorem chunkStart_none_of_not_prefixOf {l : List Char}
    (h : "CHUNK".toList.isPrefixOf l = false) : chunkStart l = none := by
  unfold chunkStart
  rw [h]
  simp

theorem chunkStart_none_head {c : Char} (hc : c ≠ 'C') (t : List Char) :
    chunkStart (c :: t) = none := by
  apply chunkStart_none_of_not_prefixOf
  have : "CHUNK".toList = 'C' :: "HUNK".toList := rfl
  rw [this]
  simp only [List.isPrefixOf, Bool.and_eq_false_iff]
  left
  exact beq_eq_false_iff_ne.2 fun he => hc he.symm


/-- A successful opener match consumes at least ten characters and leaves
a suffix of the input. -/
theorem chunkStart_some_shape {l r : List Char} (h : chunkStart l = some r) :
    ∃ mid, mid ++ r = l ∧ 10 ≤ mid.length := by
  simp only [chunkStart] at h
  split at h
  case isFalse => exact absurd h (by simp)
  case isTrue hpre =>
    rw [isPrefixOf_eq_true_iff] at hpre
    obtain ⟨r0, hr0⟩ := hpre
    have hdrop : l.drop 5 = r0 := by
      rw [← hr0]
      have h5 : ("CHUNK".toList.length) = 5 := rfl
      rw [← h5, List.drop_left]
    rw [hdrop] at h
    split at h
    case isTrue => exact absurd h (by simp)
    case isFalse hws1 =>
      split at h
      case isTrue => exact absurd h (by simp)
      case isFalse hd1 =>
        split at h
        case h_2 => exact absurd h (by simp)
        case h_1 r2x r3 hr2 =>
          split at h
          case isTrue => exact absurd h (by simp)
          case isFalse hd2 =>
            split at h
            case isTrue => exact absurd h (by simp)
            case isFalse hlen =>
              simp only [Option.some_inj] at h
              set wsA := r0.takeWhile isPySpace with hwsA
              set dA := (r0.dropWhile isPySpace).takeWhile isPyDigit with hdA
              set dB := r3.takeWhile isPyDigit with hdB
              set wsr := (r3.dropWhile isPyDigit).takeWhile isPySpace with hwsrX
              set r5 := (r3.dropWhile isPyDigit).dropWhile isPySpace with hr5X
              set afterNl := (wsr.reverse.takeWhile (fun c => c ≠ '\n')).reverse
                with hafter
              set dropPart := (wsr.reverse.dropWhile (fun c => c ≠ '\n')).reverse
                with hdropPart
              have e4 : dropPart ++ afterNl = wsr := by
                rw [hdropPart, hafter, ← List.reverse_append,
                  List.takeWhile_append_dropWhile, List.reverse_reverse]
              have e3 : wsr ++ r5 = r3.dropWhile isPyDigit :=
                List.takeWhile_append_dropWhile ..
              have e2 : dB ++ r3.dropWhile isPyDigit = r3 :=
                List.takeWhile_append_dropWhile ..
              have e1 : dA ++ ('/' :: r3) = r0.dropWhile isPySpace := by
                rw [← hr2]
                exact List.takeWhile_append_dropWhile ..
              have e0 : wsA ++ r0.dropWhile isPySpace = r0 :=
                List.takeWhile_append_dropWhile ..
              refine ⟨"CHUNK".toList ++ wsA ++ dA ++ '/' :: dB ++ dropPart, ?_, ?_⟩
              · rw [← h]
                calc ("CHUNK".toList ++ wsA ++ dA ++ '/' :: dB ++ dropPart) ++
                      (afterNl ++ r5)
                    = "CHUNK".toList ++ (wsA ++ (dA ++ '/' ::
                        (dB ++ ((dropPart ++ afterNl) ++ r5)))) := by
                      simp only [List.append_assoc, List.cons_append]
                  _ = l := by rw [e4, e3, e2, e1, e0, hr0]
              · simp only [List.length_append, List.length_cons]
                have l0 : 0 < wsA.length := List.length_pos.2 hws1
                have l1 : 0 < dA.length := List.length_pos.2 hd1
                have l2 : 0 < dB.length := List.length_pos.2 hd2
                have l3 : 0 < dropPart.length := by
                  rw [hdropPart, List.length_reverse]
                  by_contra hzero
                  push_neg at hzero
                  have hdnil : wsr.reverse.dropWhile (fun c => c ≠ '\n') = [] :=
                    List.length_eq_zero.1 (Nat.le_zero.1 hzero)
                  apply hlen
                  have hsum := congrArg List.length
                    (List.takeWhile_append_dropWhile
                      (p := fun c => c ≠ '\n') (l := wsr.reverse))
                  rw [hdnil, List.append_nil, List.length_reverse] at hsum
                  rw [hafter, List.length_reverse]
                  exact hsum
                have l4 : ("CHUNK".toList).length = 5 := rfl
                omega

theorem splitOnFirst_some {pat : List Char} :
    ∀ {l a b : List Char}, splitOnFirst pat l = some (a, b) → l = a ++ pat ++ b := by
  intro l
  induction l with
  | nil =>
    intro a b h
    simp only [splitOnFirst] at h
    split at h
    · rename_i hp
      simp only [Option.some_inj, Prod.mk.injEq] at h
      simp [hp, ← h.1, ← h.2]
    · exact absurd h (by simp)
  | cons c t ih =>
    intro a b h
    simp only [splitOnFirst] at h
    split at h
    · rename_i hp
      rw [isPrefixOf_eq_true_iff] at hp
      obtain ⟨u, hu⟩ := hp
      simp only [Option.some_inj, Prod.mk.injEq] at h
      obtain ⟨ha, hb⟩ := h
      have hdrop : (c :: t).drop pat.length = u := by rw [← hu, List.drop_left]
      rw [← ha, ← hb, hdrop, List.nil_append, hu]
    · split at h
      · rename_i a0 b0 hrec
        simp only [Option.some_inj, Prod.mk.injEq] at h
        obtain ⟨ha, hb⟩ := h
        rw [← ha, ← hb, ih hrec]
        simp
      · exact absurd h (by simp)

theorem splitOnFirst_none_of_no_occ {pat : List Char} :
    ∀ {l : List Char}, occursIn pat l = false → splitOnFirst pat l = none := by
  intro l
  induction l with
  | nil =>
    intro h
    simp only [occursIn] at h
    simp only [splitOnFirst]
    split
    · rename_i hp; subst hp; simp [List.isPrefixOf] at h
    · rfl
  | cons c t ih =>
    intro h
    rw [occursIn_cons, Bool.or_eq_false_iff] at h
    simp only [splitOnFirst, h.1, Bool.false_eq_true, if_false, ih h.2]

/-- Splitting at the first occurrence, when occurrences starting strictly
inside the prefix `w` are excluded. -/
theorem splitOnFirst_exact {pat : List Char} (hpat : pat ≠ []) :
    ∀ (w z : List Char),
      (∀ s, (∃ p, p ++ s = w) → s ≠ [] → pat.isPrefixOf (s ++ pat ++ z) = false) →
      splitOnFirst pat (w ++ pat ++ z) = some (w, z) := by
  intro w
  induction w with
  | nil =>
    intro z _
    cases hp : pat with
    | nil => exact absurd hp hpat
    | cons p pt =>
      rw [← hp]
      simp only [List.nil_append]
      have hpre : pat.isPrefixOf (pat ++ z) = true := by
        rw [isPrefixOf_eq_true_iff]; exact ⟨z, rfl⟩
      cases hq : pat ++ z with
      | nil =>
        rw [hp] at hq
        simp at hq
      | cons q qt =>
        rw [← hq]
        have hshape : ∃ x xs, pat ++ z = x :: xs := ⟨q, qt, hq⟩
        obtain ⟨x, xs, hx⟩ := hshape
        rw [hx]
        simp only [splitOnFirst]
        rw [← hx, hpre]
        simp only [if_true]
        rw [List.drop_left]
  | cons c t ih =>
    intro z hyp
    have hfirst : pat.isPrefixOf ((c :: t) ++ pat ++ z) = false := by
      have := hyp (c :: t) ⟨[], rfl⟩ (by simp)
      simpa using this
    have hstep : splitOnFirst pat ((c :: t) ++ pat ++ z) =
        match splitOnFirst pat (t ++ pat ++ z) with
        | some (a, b) => some (c :: a, b)
        | none => none := by
      simp only [List.cons_append, List.append_assoc] at hfirst ⊢
      simp only [splitOnFirst, hfirst, Bool.false_eq_true, if_false]
    rw [hstep, ih z (fun s hs hne => hyp s (by
      obtain ⟨p, hp⟩ := hs
      exact ⟨c :: p, by rw [← hp]; rfl⟩) hne)]

theorem occursIn_of_append_right {pat u l : List Char}
    (h : occursIn pat l = true) : occursIn pat (u ++ l) = true := by
  obtain ⟨a, b, rfl⟩ := (occursIn_iff_decomp pat l).1 h
  exact (occursIn_iff_decomp _ _).2 ⟨u ++ a, b, by simp⟩

theorem findBlocksF_fuel :
    ∀ (f1 : Nat) (l : List Char) (f2 : Nat), l.length ≤ f1 → l.length ≤ f2 →
      findBlocksF f1 l = findBlocksF f2 l := by
  intro f1
  induction f1 with
  | zero =>
    intro l f2 h1 _
    have hl : l = [] := List.length_eq_zero.1 (Nat.le_zero.1 h1)
    subst hl
    cases f2 <;> rfl
  | succ fa ih =>
    intro l f2 h1 h2
    cases l with
    | nil => cases f2 <;> rfl
    | cons c t =>
      cases f2 with
      | zero => simp at h2
      | succ fb =>
        simp only [findBlocksF]
        cases hcs : chunkStart (c :: t) with
        | none =>
          simp only []
          exact ih t fb (by simpa using Nat.le_of_succ_le_succ h1)
            (by simpa using Nat.le_of_succ_le_succ h2)
        | some rest =>
          cases hsp : splitOnFirst endMarker rest with
          | none => simp only [hsp]
          | some ab =>
            obtain ⟨body, after⟩ := ab
            simp only [hsp]
            obtain ⟨mid, hmid, hmlen⟩ := chunkStart_some_shape hcs
            have hrl : rest.length + 10 ≤ (c :: t).length := by
              have := congrArg List.length hmid
              simp only [List.length_append] at this
              omega
            have hal : after.length ≤ rest.length := by
              have := congrArg List.length (splitOnFirst_some hsp)
              simp only [List.length_append] at this
              omega
            have hl1 : after.length ≤ fa := by
              simp only [List.length_cons] at h1 hrl
              omega
            have hl2 : after.length ≤ fb := by
              simp only [List.length_cons] at h2 hrl
              omega
            rw [ih after fb hl1 hl2]

/-- One-step unfolding of the block scanner. -/
theorem findBlocks_cons (c : Char) (t : List Char) :
    findBlocks (c :: t) =
      match chunkStart (c :: t) with
      | some rest =>
        match splitOnFirst endMarker rest with
        | some (body, after) => body :: findBlocks after
        | none => []
      | none => findBlocks t := by
  rw [findBlocks]
  have hstep : findBlocksF (c :: t).length (c :: t) =
      match chunkStart (c :: t) with
      | some rest =>
        match splitOnFirst endMarker rest with
        | some (body, after) => body :: findBlocksF t.length after
        | none => []
      | none => findBlocksF t.length t := by
    simp only [List.length_cons, findBlocksF]
  rw [hstep]
  cases hcs : chunkStart (c :: t) with
  | none => rfl
  | some rest =>
    cases hsp : splitOnFirst endMarker rest with
    | none => simp only [hsp]
    | some ab =>
      obtain ⟨body, after⟩ := ab
      simp only [hsp]
      obtain ⟨mid, hmid, hmlen⟩ := chunkStart_some_shape hcs
      have hrl : rest.length + 10 ≤ (c :: t).length := by
        have := congrArg List.length hmid
        simp only [List.length_append] at this
        omega
      have hal : after.length ≤ rest.length := by
        have := congrArg List.length (splitOnFirst_some hsp)
        simp only [List.length_append] at this
        omega
      rw [findBlocks, findBlocksF_fuel t.length after after.length
        (by simp only [List.length_cons] at hrl; omega) (le_refl _)]

theorem findBlocks_nil_of_no_occ : ∀ {l : List Char},
    occursIn endMarker l = false → findBlocks l = [] := by
  intro l
  induction l with
  | nil => intro _; rfl
  | cons c t ih =>
    intro h
    rw [occursIn_cons, Bool.or_eq_false_iff] at h
    rw [findBlocks_cons]
    cases hcs : chunkStart (c :: t) with
    | none => exact ih h.2
    | some rest =>
      have hrest : occursIn endMarker rest = false := by
        by_contra hocc
        rw [Bool.not_eq_false] at hocc
        obtain ⟨mid, hmid, _⟩ := chunkStart_some_shape hcs
        have h2 : occursIn endMarker (c :: t) = true := by
          rw [← hmid]
          exact occursIn_of_append_right hocc
        rw [occursIn_cons, Bool.or_eq_true] at h2
        rcases h2 with h1 | h1
        · rw [h.1] at h1; exact absurd h1 (by simp)
        · rw [h.2] at h1; exact absurd h1 (by simp)
      cases hsp : splitOnFirst endMarker rest with
      | none => simp only [hsp]
      | some ab =>
        exfalso
        obtain ⟨body, after⟩ := ab
        have hdec := splitOnFirst_some hsp
        have : occursIn endMarker rest = true :=
          (occursIn_iff_decomp _ _).2 ⟨body, after, hdec⟩
        rw [this] at hrest
        exact absurd hrest (by simp)

theorem findBlocks_skip : ∀ (x rest : List Char),
    (∀ s, (∃ p, p ++ s = x) → s ≠ [] → chunkStart (s ++ rest) = none) →
    findBlocks (x ++ rest) = findBlocks rest := by
  intro x
  induction x with
  | nil => intro rest _; rfl
  | cons c t ih =>
    intro rest hyp
    rw [List.cons_append, findBlocks_cons]
    have hnone : chunkStart (c :: (t ++ rest)) = none := by
      have := hyp (c :: t) ⟨[], rfl⟩ (by simp)
      simpa using this
    rw [hnone]
    exact ih rest fun s hs hne => hyp s (by
      obtain ⟨p, hp⟩ := hs
      exact ⟨c :: p, by rw [← hp]; rfl⟩) hne

/-- Discharging the skip condition: a text region with no `CHUNK`
occurrence that ends in a newline admits no opener match at any of its
positions (a straddling match would need the region's last character to
be one of `C`, `H`, `U`, `N`). -/
theorem chunkStart_none_in_region {x : List Char}
    (hocc : occursIn "CHUNK".toList x = false)
    (hlast : x.getLast? = some '\n') (rest : List Char) :
    ∀ s, (∃ p, p ++ s = x) → s ≠ [] → chunkStart (s ++ rest) = none := by
  intro s hs hne
  obtain ⟨p, hp⟩ := hs
  apply chunkStart_none_of_not_prefixOf
  by_contra hpre
  rw [Bool.not_eq_false, isPrefixOf_eq_true_iff] at hpre
  obtain ⟨u, hu⟩ := hpre
  rcases Nat.lt_or_ge s.length 5 with hlt | hge
  · have hs_take : s = "CHUNK".toList.take s.length := by
      have h1 : (s ++ rest).take s.length = s := List.take_left s rest
      have h2 : ("CHUNK".toList ++ u).take s.length = "CHUNK".toList.take s.length :=
        List.take_append_of_le_length
          (by have h5 : ("CHUNK".toList).length = 5 := rfl; omega)
      calc s = List.take s.length (s ++ rest) := h1.symm
        _ = List.take s.length ("CHUNK".toList ++ u) := by rw [hu]
        _ = List.take s.length "CHUNK".toList := h2
    have hlast_s : s.getLast? = some '\n' := by
      rw [← hp, List.getLast?_append] at hlast
      cases hsl : s.getLast? with
      | none =>
        rw [List.getLast?_eq_none_iff] at hsl
        exact absurd hsl hne
      | some z =>
        rw [hsl] at hlast
        simpa using hlast
    have hpos : 0 < s.length := List.length_pos.2 hne
    have hcase : s.length = 1 ∨ s.length = 2 ∨ s.length = 3 ∨ s.length = 4 := by omega
    rcases hcase with h1 | h1 | h1 | h1 <;>
      (rw [h1] at hs_take; rw [hs_take] at hlast_s; simp at hlast_s)
  · have htake : "CHUNK".toList = s.take 5 := by
      have h1 : ("CHUNK".toList ++ u).take 5 = "CHUNK".toList := by
        have h5 : ("CHUNK".toList).length = 5 := rfl
        conv_lhs => rw [← h5]
        rw [List.take_left]
      have h2 : (s ++ rest).take 5 = s.take 5 := List.take_append_of_le_length hge
      rw [← h1, hu, h2]
    have hx : x = p ++ ("CHUNK".toList ++ s.drop 5) := by
      rw [htake, List.take_append_drop]
      exact hp.symm
    have hocc2 : occursIn "CHUNK".toList x = true :=
      (occursIn_iff_decomp _ _).2 ⟨p, s.drop 5, by rw [hx]; simp⟩
    rw [hocc2] at hocc
    exact absurd hocc (by simp)

/-! ### takeWhile / dropWhile computation helpers -/

theorem takeWhile_append_of_all {α : Type} (p : α → Bool) {a : List α} (b : List α)
    (ha : ∀ c ∈ a, p c = true) : (a ++ b).takeWhile p = a ++ b.takeWhile p := by
  induction a with
  | nil => rfl
  | cons c t ih =>
    rw [List.cons_append, List.takeWhile_cons, ha c (List.mem_cons_self _ _)]
    simp only [if_true, ite_true, List.cons_append, List.cons.injEq, true_and]
    exact ih fun d hd => ha d (List.mem_cons_of_mem _ hd)

theorem dropWhile_append_of_all {α : Type} (p : α → Bool) {a : List α} (b : List α)
    (ha : ∀ c ∈ a, p c = true) : (a ++ b).dropWhile p = b.dropWhile p := by
  induction a with
  | nil => rfl
  | cons c t ih =>
    rw [List.cons_append, List.dropWhile_cons, ha c (List.mem_cons_self _ _)]
    simp only [if_true, ite_true]
    exact ih fun d hd => ha d (List.mem_cons_of_mem _ hd)

theorem takeWhile_head_false {α : Type} (p : α → Bool) {l : List α}
    (h : ∀ c, l.head? = some c → p c = false) : l.takeWhile p = [] := by
  cases l with
  | nil => rfl
  | cons c t => rw [List.takeWhile_cons, h c rfl]; rfl

theorem dropWhile_head_false {α : Type} (p : α → Bool) {l : List α}
    (h : ∀ c, l.head? = some c → p c = false) : l.dropWhile p = l := by
  cases l with
  | nil => rfl
  | cons c t => rw [List.dropWhile_cons, h c rfl]; rfl

theorem digit_not_space {c : Char} (h : isPyDigit c = true) : isPySpace c = false := by
  rw [isPySpace]
  apply decide_eq_false
  intro hd
  rcases hd with h1 | h1 | h1 | h1 | h1 | h1 <;> (subst h1; revert h; decide)

/-- The opener regex matches a well-formed `CHUNK i/n` line followed by a
newline, consuming exactly through that newline (provided the following
text does not begin with whitespace). -/
theorem chunkStart_step {istr nstr rest : List Char}
    (hi : istr ≠ []) (hid : ∀ c ∈ istr, isPyDigit c = true)
    (hn : nstr ≠ []) (hnd : ∀ c ∈ nstr, isPyDigit c = true)
    (hrest : ∀ c, rest.head? = some c → isPySpace c = false) :
    chunkStart ('C' :: 'H' :: 'U' :: 'N' :: 'K' :: ' ' ::
      (istr ++ '/' :: (nstr ++ '\n' :: rest))) = some rest := by
  cases istr with
  | nil => exact absurd rfl hi
  | cons i0 it =>
  cases nstr with
  | nil => exact absurd rfl hn
  | cons n0 nt =>
  have hi0 : isPyDigit i0 = true := hid i0 (List.mem_cons_self _ _)
  have hpre : "CHUNK".toList.isPrefixOf ('C' :: 'H' :: 'U' :: 'N' :: 'K' :: ' ' ::
      ((i0 :: it) ++ '/' :: ((n0 :: nt) ++ '\n' :: rest))) = true := by
    rw [isPrefixOf_eq_true_iff]
    exact ⟨' ' :: ((i0 :: it) ++ '/' :: ((n0 :: nt) ++ '\n' :: rest)), rfl⟩
  have hdrop : ('C' :: 'H' :: 'U' :: 'N' :: 'K' :: ' ' ::
      ((i0 :: it) ++ '/' :: ((n0 :: nt) ++ '\n' :: rest))).drop 5 =
      ' ' :: ((i0 :: it) ++ '/' :: ((n0 :: nt) ++ '\n' :: rest)) := rfl
  -- whitespace run after "CHUNK": exactly the single space
  have ews_t : (' ' :: ((i0 :: it) ++ '/' :: ((n0 :: nt) ++ '\n' :: rest))).takeWhile
      isPySpace = [' '] := by
    rw [List.takeWhile_cons]
    have h1 : isPySpace ' ' = true := by decide
    rw [h1]
    simp only [if_true, ite_true]
    rw [List.cons_append, List.takeWhile_cons, digit_not_space hi0]
    rfl
  have ews_d : (' ' :: ((i0 :: it) ++ '/' :: ((n0 :: nt) ++ '\n' :: rest))).dropWhile
      isPySpace = (i0 :: it) ++ '/' :: ((n0 :: nt) ++ '\n' :: rest) := by
    rw [List.dropWhile_cons]
    have h1 : isPySpace ' ' = true := by decide
    rw [h1]
    simp only [if_true, ite_true]
    rw [List.cons_append, List.dropWhile_cons, digit_not_space hi0]
    rfl
  -- first digit run: exactly istr
  have ed1_t : ((i0 :: it) ++ '/' :: ((n0 :: nt) ++ '\n' :: rest)).takeWhile isPyDigit
      = i0 :: it := by
    rw [takeWhile_append_of_all isPyDigit _ hid,
      takeWhile_head_false isPyDigit (by intro c hc; injection hc with hc2; subst hc2; decide),
      List.append_nil]
  have ed1_d : ((i0 :: it) ++ '/' :: ((n0 :: nt) ++ '\n' :: rest)).dropWhile isPyDigit
      = '/' :: ((n0 :: nt) ++ '\n' :: rest) := by
    rw [dropWhile_append_of_all isPyDigit _ hid,
      dropWhile_head_false isPyDigit (by intro c hc; injection hc with hc2; subst hc2; decide)]
  -- second digit run: exactly nstr
  have ed2_t : ((n0 :: nt) ++ '\n' :: rest).takeWhile isPyDigit = n0 :: nt := by
    rw [takeWhile_append_of_all isPyDigit _ hnd,
      takeWhile_head_false isPyDigit (by intro c hc; injection hc with hc2; subst hc2; decide),
      List.append_nil]
  have ed2_d : ((n0 :: nt) ++ '\n' :: rest).dropWhile isPyDigit = '\n' :: rest := by
    rw [dropWhile_append_of_all isPyDigit _ hnd,
      dropWhile_head_false isPyDigit (by intro c hc; injection hc with hc2; subst hc2; decide)]
  -- trailing whitespace run: exactly the newline
  have ews2_t : ('\n' :: rest).takeWhile isPySpace = ['\n'] := by
    rw [List.takeWhile_cons]
    have h1 : isPySpace '\n' = true := by decide
    rw [h1]
    simp only [if_true, ite_true]
    rw [takeWhile_head_false isPySpace hrest]
  have ews2_d : ('\n' :: rest).dropWhile isPySpace = rest := by
    rw [List.dropWhile_cons]
    have h1 : isPySpace '\n' = true := by decide
    rw [h1]
    simp only [if_true, ite_true]
    exact dropWhile_head_false isPySpace hrest
  unfold chunkStart
  rw [hpre]
  simp only [if_true, ite_true, hdrop, ews_t, ews_d, ed1_t, ed1_d, ed2_t, ed2_d,
    ews2_t, ews2_d]
  simp only [List.reverse_cons, List.reverse_nil, List.nil_append]
  simp

theorem endMarker_ne_nil : endMarker ≠ [] := by decide

/-- No occurrence of `\nEND CHUNK` can start strictly inside wrapped
base64 text: the pattern's space (index 4) cannot come from base64
characters, and its later characters cannot line up with the pattern's
own leading newline. -/
theorem endMarker_no_straddle {wrapc : List Char}
    (hchar : ∀ c ∈ wrapc, c ∈ b64Alphabet ∨ c = '=' ∨ c = '\n') (tail : List Char) :
    ∀ s, (∃ p, p ++ s = wrapc) → s ≠ [] →
      endMarker.isPrefixOf (s ++ endMarker ++ tail) = false := by
  intro s hs hne
  obtain ⟨p, hp⟩ := hs
  by_contra hpre
  rw [Bool.not_eq_false, isPrefixOf_eq_true_iff] at hpre
  obtain ⟨u, hu⟩ := hpre
  have hassoc : s ++ endMarker ++ tail = s ++ (endMarker ++ tail) := by
    rw [List.append_assoc]
  rw [hassoc] at hu
  rcases Nat.lt_or_ge s.length 5 with hlt | hge
  · have hpos : 0 < s.length := List.length_pos.2 hne
    have hL : (endMarker ++ u)[s.length]? = endMarker[s.length]? :=
      List.getElem?_append_left (by have h10 : endMarker.length = 10 := rfl; omega)
    have hR : (s ++ (endMarker ++ tail))[s.length]? = some '\n' := by
      rw [List.getElem?_append_right (le_refl _)]
      simp only [Nat.sub_self]
      rfl
    have heq : endMarker[s.length]? = some '\n' := by rw [← hL, hu, hR]
    have hcase : s.length = 1 ∨ s.length = 2 ∨ s.length = 3 ∨ s.length = 4 := by omega
    rcases hcase with h1 | h1 | h1 | h1 <;> (rw [h1] at heq; simp [endMarker] at heq)
  · have h4L : (endMarker ++ u)[4]? = some ' ' := rfl
    have h4R : (s ++ (endMarker ++ tail))[4]? = s[4]? :=
      List.getElem?_append_left (by omega)
    have hsp : s[4]? = some ' ' := by rw [← h4R, ← hu, h4L]
    have hmem : ' ' ∈ s := by
      have h4lt : 4 < s.length := by omega
      have : s[4] = ' ' := by
        have := hsp
        rw [List.getElem?_eq_getElem h4lt] at this
        simpa using this
      exact this ▸ List.getElem_mem h4lt
    have hmem2 : ' ' ∈ wrapc := by
      rw [← hp]
      exact List.mem_append_right p hmem
    rcases hchar ' ' hmem2 with h | h | h
    · revert h; decide
    · exact absurd h (by decide)
    · exact absurd h (by decide)

/-- Head and nonemptiness of wrapped text. -/
theorem pyWrap_shape (lw : Nat) (hlw : 1 ≤ lw) (s0 : Char) (st : List Char) :
    ∃ w1, pyWrap lw (s0 :: st) = s0 :: w1 := by
  rw [pyWrap, pyChunks]
  simp only [List.length_cons, chunksOfF]
  cases lw with
  | zero => omega
  | succ k =>
    rw [List.take_succ_cons]
    cases hch : chunksOfF (k + 1) st.length ((s0 :: st).drop (k + 1)) with
    | nil => exact ⟨st.take k, rfl⟩
    | cons y t => exact ⟨st.take k ++ '\n' :: joinNl (y :: t), rfl⟩

theorem b64_not_space : ∀ c ∈ b64Alphabet, isPySpace c = false := by decide

/-- Scanning a well-formed chunk block: capture the wrapped text, resume
after the end marker. -/
theorem findBlocks_step {istr nstr wrapc tail : List Char}
    (hi : istr ≠ []) (hid : ∀ c ∈ istr, isPyDigit c = true)
    (hn : nstr ≠ []) (hnd : ∀ c ∈ nstr, isPyDigit c = true)
    (hw : wrapc ≠ []) (hchar : ∀ c ∈ wrapc, c ∈ b64Alphabet ∨ c = '=' ∨ c = '\n')
    (hwhead : ∀ c, wrapc.head? = some c → isPySpace c = false) :
    findBlocks ('C' :: 'H' :: 'U' :: 'N' :: 'K' :: ' ' ::
      (istr ++ '/' :: (nstr ++ '\n' :: (wrapc ++ endMarker ++ tail)))) =
      wrapc :: findBlocks tail := by
  have hrest : ∀ c, (wrapc ++ endMarker ++ tail).head? = some c → isPySpace c = false := by
    intro c hc
    cases wrapc with
    | nil => exact absurd rfl hw
    | cons w0 wt =>
      simp only [List.cons_append, List.head?_cons, Option.some_inj] at hc
      exact hc ▸ hwhead w0 rfl
  have hcs := chunkStart_step hi hid hn hnd hrest
  rw [findBlocks_cons, hcs]
  simp only [splitOnFirst_exact endMarker_ne_nil wrapc tail
    (fun s hs hne => endMarker_no_straddle hchar tail s hs hne)]

/-- Pattern prefixes of a text restrict to its first physical line when
the pattern has no newline. -/
theorem isPrefixOf_head_line {p : List Char} (hp : '\n' ∉ p) :
    ∀ {t : List Char}, p.isPrefixOf t = true →
      p.isPrefixOf ((splitPhysLines t).headD []) = true := by
  induction p with
  | nil => intro t _; simp
  | cons p0 pt ih =>
    intro t h
    cases t with
    | nil => simp [List.isPrefixOf] at h
    | cons c t2 =>
      simp only [List.isPrefixOf, Bool.and_eq_true, beq_iff_eq] at h
      obtain ⟨rfl, h2⟩ := h
      have hc : p0 ≠ '\n' := fun he => hp (he ▸ List.mem_cons_self _ _)
      simp only [splitPhysLines, if_neg hc]
      cases hsp : splitPhysLines t2 with
      | nil => exact absurd hsp (splitPhysLines_ne_nil t2)
      | cons l ls =>
        have := ih (fun hmem => hp (List.mem_cons_of_mem _ hmem)) h2
        rw [hsp] at this
        simp only [List.headD_cons] at this ⊢
        simp [List.isPrefixOf, this]

/-- Absence of `\nEND CHUNK` follows from no physical line after the
first starting with `END CHUNK`. -/
theorem no_endMarker_of_lines : ∀ {t : List Char},
    (∀ l ∈ (splitPhysLines t).drop 1, "END CHUNK".toList.isPrefixOf l = false) →
    occursIn endMarker t = false := by
  intro t
  induction t with
  | nil => intro _; rfl
  | cons c t2 ih =>
    intro h
    rw [occursIn_cons, Bool.or_eq_false_iff]
    constructor
    · by_contra hpre
      rw [Bool.not_eq_false] at hpre
      have hshape : endMarker = '\n' :: "END CHUNK".toList := rfl
      rw [hshape] at hpre
      simp only [List.isPrefixOf, Bool.and_eq_true, beq_iff_eq] at hpre
      obtain ⟨hc, h2⟩ := hpre
      subst hc
      have hline := isPrefixOf_head_line (p := "END CHUNK".toList) (by decide) h2
      have hfirst : (splitPhysLines t2).headD [] ∈ (splitPhysLines ('\n' :: t2)).drop 1 := by
        have hs : splitPhysLines ('\n' :: t2) = [] :: splitPhysLines t2 := by
          simp [splitPhysLines]
        rw [hs, List.drop_one, List.tail_cons]
        cases hsp : splitPhysLines t2 with
        | nil => exact absurd hsp (splitPhysLines_ne_nil t2)
        | cons l ls => simp
      have := h _ hfirst
      rw [hline] at this
      exact absurd this (by simp)
    · apply ih
      intro l hl
      apply h
      by_cases hc : c = '\n'
      · subst hc
        have hs : splitPhysLines ('\n' :: t2) = [] :: splitPhysLines t2 := by
          simp [splitPhysLines]
        rw [hs, List.drop_one, List.tail_cons]
        exact List.drop_subset _ _ hl
      · cases hsp : splitPhysLines t2 with
        | nil => exact absurd hsp (splitPhysLines_ne_nil t2)
        | cons l2 ls =>
          have hs : splitPhysLines (c :: t2) = (c :: l2) :: ls := by
            simp only [splitPhysLines, if_neg hc, hsp]
          rw [hs, List.drop_one, List.tail_cons]
          rw [hsp, List.drop_one, List.tail_cons] at hl
          exact hl

theorem joinNl_cons_ne (a : List Char) {L : List (List Char)} (hL : L ≠ []) :
    joinNl (a :: L) = a ++ '\n' :: joinNl L := by
  cases L with
  | nil => exact absurd rfl hL
  | cons b t => exact joinNl_cons_cons a b t

theorem digit_isPyDigit : ∀ c ∈ decDigits, isPyDigit c = true := by decide

theorem renderNat_isPyDigit (n : Nat) : ∀ c ∈ renderNat n, isPyDigit c = true :=
  fun c hc => digit_isPyDigit c (renderNat_mem n c hc)

theorem renderNat_ne_nil (n : Nat) : renderNat n ≠ [] :=
  renderNatF_ne_nil _ _ (Nat.lt_succ_self n)

theorem skip_two_newlines (rest : List Char) :
    findBlocks ('\n' :: '\n' :: rest) = findBlocks rest := by
  have h : findBlocks (['\n', '\n'] ++ rest) = findBlocks rest := by
    apply findBlocks_skip
    intro s hs hne
    obtain ⟨p, hp⟩ := hs
    cases s with
    | nil => exact absurd rfl hne
    | cons hd tl =>
      have hmem : hd ∈ (['\n', '\n'] : List Char) := by
        rw [← hp]
        exact List.mem_append_right p (List.mem_cons_self _ _)
      have hhd : hd = '\n' := by
        rcases List.mem_cons.1 hmem with h1 | h1
        · exact h1
        · simpa using h1
      rw [List.cons_append]
      exact chunkStart_none_head (by rw [hhd]; decide) _
  simpa using h

/-- Scanning the rendered chunk blocks followed by trailing text with no
end marker yields exactly the wrapped chunks, in order. -/
theorem findBlocks_bodyChain (lw : Nat) (hlw : 1 ≤ lw) (total : Nat)
    (post : List (List Char)) (hpost : post ≠ [])
    (hocc : occursIn endMarker (joinNl post) = false) :
    ∀ (cl : List (List Char)) (i : Nat),
      (∀ p ∈ cl, p ≠ [] ∧ ∀ c ∈ p, c ∈ b64Alphabet ∨ c = '=') →
      findBlocks (joinNl (bodyLines lw total i cl ++ post)) = cl.map (pyWrap lw) := by
  intro cl
  induction cl with
  | nil =>
    intro i _
    simp only [bodyLines, List.nil_append, List.map_nil]
    exact findBlocks_nil_of_no_occ hocc
  | cons c1 rest ih =>
    intro i hcl
    obtain ⟨hc1ne, hc1chars⟩ := hcl c1 (List.mem_cons_self _ _)
    have hLne : bodyLines lw total (i + 1) rest ++ post ≠ [] := by
      intro h
      exact hpost (List.append_eq_nil.1 h).2
    cases c1 with
    | nil => exact absurd rfl hc1ne
    | cons s0 st =>
      obtain ⟨w1, hwrap⟩ := pyWrap_shape lw hlw s0 st
      have hbody : bodyLines lw total i ((s0 :: st) :: rest) ++ post =
          ("CHUNK ".toList ++ renderNat i ++ '/' :: renderNat total) ::
            pyWrap lw (s0 :: st) :: "END CHUNK".toList :: [] ::
              (bodyLines lw total (i + 1) rest ++ post) := rfl
      have hjoin : joinNl (bodyLines lw total i ((s0 :: st) :: rest) ++ post) =
          ("CHUNK ".toList ++ renderNat i ++ '/' :: renderNat total) ++ '\n' ::
            (pyWrap lw (s0 :: st) ++ '\n' ::
              ("END CHUNK".toList ++ '\n' :: '\n' ::
                joinNl (bodyLines lw total (i + 1) rest ++ post))) := by
        rw [hbody, joinNl_cons_cons, joinNl_cons_cons, joinNl_cons_cons,
          joinNl_cons_ne _ hLne]
        simp
      have hshape :
          ("CHUNK ".toList ++ renderNat i ++ '/' :: renderNat total) ++ '\n' ::
            (pyWrap lw (s0 :: st) ++ '\n' ::
              ("END CHUNK".toList ++ '\n' :: '\n' ::
                joinNl (bodyLines lw total (i + 1) rest ++ post))) =
          'C' :: 'H' :: 'U' :: 'N' :: 'K' :: ' ' ::
            (renderNat i ++ '/' :: (renderNat total ++ '\n' ::
              (pyWrap lw (s0 :: st) ++ endMarker ++
                ('\n' :: '\n' :: joinNl (bodyLines lw total (i + 1) rest ++ post))))) := by
        have hstr : "CHUNK ".toList = 'C' :: 'H' :: 'U' :: 'N' :: 'K' :: ' ' :: [] := rfl
        have hem : endMarker = '\n' :: "END CHUNK".toList := rfl
        rw [hstr, hem]
        simp [List.append_assoc, List.cons_append]
      rw [hjoin, hshape]
      rw [findBlocks_step (renderNat_ne_nil i) (renderNat_isPyDigit i)
        (renderNat_ne_nil total) (renderNat_isPyDigit total)
        (by simp [hwrap]) ?hchar ?hwhead]
      case hchar =>
        intro c hc
        rcases pyWrap_mem lw (s0 :: st) c hc with h1 | h1
        · rcases hc1chars c h1 with h2 | h2
          · exact Or.inl h2
          · exact Or.inr (Or.inl h2)
        · exact Or.inr (Or.inr h1)
      case hwhead =>
        intro c hc
        rw [hwrap] at hc
        simp only [List.head?_cons, Option.some_inj] at hc
        subst hc
        rcases hc1chars s0 (List.mem_cons_self _ _) with h1 | h1
        · exact b64_not_space s0 h1
        · rw [h1]; decide
      rw [skip_two_newlines]
      rw [ih (i + 1) (fun p hp => hcl p (List.mem_cons_of_mem _ hp))]
      simp

theorem pyChunks_ne_nil {α : Type} (cs : Nat) {l : List α} (hl : l ≠ []) :
    pyChunks cs l ≠ [] := by
  cases l with
  | nil => exact absurd rfl hl
  | cons x xs => simp [pyChunks, chunksOfF]

/-- The physical lines of wrapped newline-free text are its pieces. -/
theorem splitPhysLines_pyWrap {lw : Nat} {v : List Char} (hv : '\n' ∉ v)
    (hne : v ≠ []) :
    splitPhysLines (pyWrap lw v) = pyChunks lw v := by
  rw [pyWrap, splitPhysLines_joinNl _ (pyChunks_ne_nil lw hne)]
  have hpieces : ∀ p ∈ pyChunks lw v, splitPhysLines p = [p] := by
    intro p hp
    apply splitPhysLines_eq_self
    intro hmem
    exact hv (chunksOfF_mem lw v.length v p hp '\n' hmem)
  calc (pyChunks lw v).flatMap splitPhysLines
      = (pyChunks lw v).flatMap (fun p => [p]) := by
        apply List.flatMap_congr
        intro p hp
        exact hpieces p hp
    _ = pyChunks lw v := by simp

/-- Base64-charset text cannot start with `END CHUNK` (no space). -/
theorem no_endPrefixOf_of_charset {piece : List Char}
    (h : ∀ c ∈ piece, c ∈ b64Alphabet ∨ c = '=') :
    "END CHUNK".toList.isPrefixOf piece = false := by
  by_contra hpre
  rw [Bool.not_eq_false, isPrefixOf_eq_true_iff] at hpre
  obtain ⟨u, hu⟩ := hpre
  have hsp : ' ' ∈ piece := by
    rw [← hu]
    apply List.mem_append_left
    decide
  rcases h ' ' hsp with h1 | h1
  · revert h1; decide
  · exact absurd h1 (by decide)

/-- Combining per-line facts over a newline join, for a pattern starting
with a character and containing no newline. -/
theorem occ_joinNl_false {p0 : Char} {pt : List Char} (hnl : '\n' ∉ p0 :: pt) :
    ∀ (lines : List (List Char)),
      (∀ l ∈ lines, occursIn (p0 :: pt) l = false) →
      occursIn (p0 :: pt) (joinNl lines) = false := by
  intro lines
  induction lines with
  | nil => intro _; rfl
  | cons a L ih =>
    intro h
    cases L with
    | nil => exact h a (List.mem_cons_self _ _)
    | cons b t =>
      rw [joinNl_cons_cons]
      by_contra hocc
      rw [Bool.not_eq_false] at hocc
      rcases occursIn_append_cons '\n' hnl hocc with h1 | h1
      · rw [h a (List.mem_cons_self _ _)] at h1
        exact absurd h1 (by simp)
      · rw [ih (fun l hl => h l (List.mem_cons_of_mem _ hl))] at h1
        exact absurd h1 (by simp)

/-- No `\nEND CHUNK` occurs in the ICC/EXIF blocks and footer. -/
theorem post_no_endMarker (lw : Nat) (meta : LosslessMeta)
    (hicc : ∀ v, meta.iccB64 = some v → ∀ c ∈ v, c ∈ b64Alphabet ∨ c = '=')
    (hexif : ∀ v, meta.exifBytes = some v → ∀ b ∈ v, b < 256) :
    occursIn endMarker (joinNl (extraLines lw meta ++ instrLines)) = false := by
  apply no_endMarker_of_lines
  intro l hl
  have hl2 : l ∈ (extraLines lw meta ++ instrLines).flatMap splitPhysLines := by
    have hne : extraLines lw meta ++ instrLines ≠ [] := by
      intro h
      have := (List.append_eq_nil.1 h).2
      simp [instrLines] at this
    rw [splitPhysLines_joinNl _ hne] at hl
    exact List.drop_subset 1 _ hl
  rw [List.flatMap_append] at hl2
  have hwrapLine : ∀ (v : List Char), (∀ c ∈ v, c ∈ b64Alphabet ∨ c = '=') →
      l ∈ splitPhysLines (pyWrap lw v) → "END CHUNK".toList.isPrefixOf l = false := by
    intro v hv hlv
    by_cases hvnil : v = []
    · subst hvnil
      have : splitPhysLines (pyWrap lw []) = [[]] := by
        cases lw <;> rfl
      rw [this] at hlv
      simp only [List.mem_singleton] at hlv
      subst hlv
      decide
    · have hnl : '\n' ∉ v := by
        intro hmem
        rcases hv '\n' hmem with h1 | h1
        · revert h1; decide
        · exact absurd h1 (by decide)
      rw [splitPhysLines_pyWrap hnl hvnil] at hlv
      apply no_endPrefixOf_of_charset
      intro c hc
      exact hv c (chunksOfF_mem lw v.length v l hlv c hc)
  rcases List.mem_append.1 hl2 with hx | hx
  · -- ICC/EXIF blocks
    simp only [extraLines, List.flatMap_append] at hx
    rcases List.mem_append.1 hx with hy | hy
    · by_cases hticc : pyTruthy meta.iccB64 = true
      · rw [if_pos hticc] at hy
        simp only [List.flatMap_cons, List.flatMap_nil, List.append_nil] at hy
        rcases List.mem_append.1 hy with hz | hz
        · rw [splitPhysLines_eq_self (by decide)] at hz
          simp only [List.mem_singleton] at hz
          subst hz; decide
        · rcases List.mem_append.1 hz with hz2 | hz2
          · cases hio : meta.iccB64 with
            | none => rw [hio] at hticc; simp [pyTruthy] at hticc
            | some v =>
              refine hwrapLine v (hicc v hio) ?_
              rw [hio] at hz2
              simpa using hz2
          · rcases List.mem_append.1 hz2 with hz3 | hz3
            · rw [splitPhysLines_eq_self (by decide)] at hz3
              simp only [List.mem_singleton] at hz3
              subst hz3; decide
            · simp only [splitPhysLines] at hz3
              simp only [List.mem_singleton] at hz3
              subst hz3; decide
      · rw [if_neg hticc] at hy
        simp at hy
    · by_cases htex : pyTruthy meta.exifBytes = true
      · rw [if_pos htex] at hy
        simp only [List.flatMap_cons, List.flatMap_nil, List.append_nil] at hy
        rcases List.mem_append.1 hy with hz | hz
        · rw [splitPhysLines_eq_self (by decide)] at hz
          simp only [List.mem_singleton] at hz
          subst hz; decide
        · rcases List.mem_append.1 hz with hz2 | hz2
          · cases hio : meta.exifBytes with
            | none => rw [hio] at htex; simp [pyTruthy] at htex
            | some v =>
              refine hwrapLine (b64Encode v) ?_ ?_
              · exact b64Encode_mem v (hexif v hio)
              · rw [hio] at hz2
                simpa using hz2
          · rcases List.mem_append.1 hz2 with hz3 | hz3
            · rw [splitPhysLines_eq_self (by decide)] at hz3
              simp only [List.mem_singleton] at hz3
              subst hz3; decide
            · simp only [splitPhysLines] at hz3
              simp only [List.mem_singleton] at hz3
              subst hz3; decide
      · rw [if_neg htex] at hy
        simp at hy
  · -- fixed footer
    simp only [instrLines, List.flatMap_cons, List.flatMap_nil, List.append_nil] at hx
    have hlit : ∀ (e : List Char), '\n' ∉ e → l ∈ splitPhysLines e →
        "END CHUNK".toList.isPrefixOf e = false →
        "END CHUNK".toList.isPrefixOf l = false := by
      intro e hnl hle hpre
      rw [splitPhysLines_eq_self hnl] at hle
      simp only [List.mem_singleton] at hle
      subst hle
      exact hpre
    rcases List.mem_append.1 hx with h1 | hx2
    · exact hlit _ (by decide) h1 (by decide)
    rcases List.mem_append.1 hx2 with h1 | hx3
    · exact hlit _ (by decide) h1 (by decide)
    rcases List.mem_append.1 hx3 with h1 | hx4
    · exact hlit _ (by decide) h1 (by decide)
    rcases List.mem_append.1 hx4 with h1 | hx5
    · exact hlit _ (by decide) h1 (by decide)
    rcases List.mem_append.1 hx5 with h1 | h1
    · exact hlit _ (by decide) h1 (by decide)
    · exact hlit _ (by decide) h1 (by decide)

theorem joinNl_append {A B : List (List Char)} (hA : A ≠ []) (hB : B ≠ []) :
    joinNl (A ++ B) = joinNl A ++ '\n' :: joinNl B := by
  induction A with
  | nil => exact absurd rfl hA
  | cons a t ih =>
    cases t with
    | nil =>
      rw [List.cons_append, List.nil_append, joinNl_cons_ne _ hB]
      rfl
    | cons b t2 =>
      rw [List.cons_append, joinNl_cons_ne _ (by simp), joinNl_cons_cons,
        ih (by simp)]
      simp

/-- Well-formedness of the PIL-provided metadata strings: the rendered
values contain no `CHUNK` literal and no newline, the filename is
nonempty, the ICC value is base64 text and the EXIF value is bytes.
All conditions hold for values produced by the source's formatting. -/
def metaOk (meta : LosslessMeta) (source : List Char) : Prop :=
  (∀ v ∈ [source, meta.filename, meta.mimeType, meta.colorMode, meta.dpiX,
      meta.dpiY, meta.exifOrientation, meta.software],
    occursIn "CHUNK".toList v = false ∧ '\n' ∉ v) ∧
  meta.filename ≠ [] ∧
  (match meta.iccB64 with
   | some v => ∀ c ∈ v, c ∈ b64Alphabet ∨ c = '='
   | none => True) ∧
  (match meta.exifBytes with
   | some v => ∀ b ∈ v, b < 256
   | none => True)

theorem metaOk_icc {meta : LosslessMeta} {source : List Char}
    (h : metaOk meta source) :
    ∀ v, meta.iccB64 = some v → ∀ c ∈ v, c ∈ b64Alphabet ∨ c = '=' := by
  intro v hv
  have := h.2.2.1
  rw [hv] at this
  exact this

theorem metaOk_exif {meta : LosslessMeta} {source : List Char}
    (h : metaOk meta source) :
    ∀ v, meta.exifBytes = some v → ∀ b ∈ v, b < 256 := by
  intro v hv
  have := h.2.2.2
  rw [hv] at this
  exact this

/-- No `CHUNK` literal occurs in the rendered header. -/
theorem header_no_chunk (blob : List Nat) (meta : LosslessMeta) (source : List Char)
    (chunkCount lineWidth : Nat) (hmeta : metaOk meta source) :
    occursIn "CHUNK".toList
      (joinNl (headerLines blob meta source chunkCount lineWidth)) = false := by
  have hCHUNK : "CHUNK".toList = 'C' :: "HUNK".toList := rfl
  have hvals := hmeta.1
  rw [hCHUNK] at hvals ⊢
  have hrender : ∀ n, occursIn ('C' :: "HUNK".toList) (renderNat n) = false := by
    intro n
    apply occursIn_false_of_head_notMem
    intro hmem
    have := renderNat_mem n 'C' hmem
    revert this; decide
  have hsha : occursIn ('C' :: "HUNK".toList) (sha256Hex blob) = false := by
    apply occursIn_false_of_head_notMem
    intro hmem
    have := sha256Hex_mem blob 'C' hmem
    revert this; decide
  have hmd5 : occursIn ('C' :: "HUNK".toList) (md5Hex blob) = false := by
    apply occursIn_false_of_head_notMem
    intro hmem
    have := md5Hex_mem blob 'C' hmem
    revert this; decide
  have hbool : ∀ b, occursIn ('C' :: "HUNK".toList) (pyBool b) = false := by
    intro b; cases b <;> decide
  have happ : ∀ (lit v : List Char), 'C' ∉ lit →
      occursIn ('C' :: "HUNK".toList) v = false →
      occursIn ('C' :: "HUNK".toList) (lit ++ v) = false :=
    fun lit v h1 h2 => occursIn_append_head h1 h2
  apply occ_joinNl_false (by decide)
  intro l hl
  simp only [headerLines, List.mem_cons, List.not_mem_nil, or_false] at hl
  rcases hl with rfl | rfl | rfl | rfl | rfl | rfl | rfl | rfl | rfl | rfl | rfl |
    rfl | rfl | rfl | rfl | rfl | rfl | rfl | rfl | rfl | rfl | rfl | rfl
  · decide
  · exact happ _ _ (by decide) (hvals source (by simp)).1
  · exact happ _ _ (by decide) (hvals meta.filename (by simp)).1
  · exact happ _ _ (by decide) (hvals meta.mimeType (by simp)).1
  · exact happ _ _ (by decide) (hrender _)
  · exact happ _ _ (by decide) (hrender _)
  · exact happ _ _ (by decide) (hrender _)
  · exact happ _ _ (by decide) (hvals meta.colorMode (by simp)).1
  · exact happ _ _ (by decide) (hrender _)
  · exact happ _ _ (by decide) (hvals meta.dpiX (by simp)).1
  · exact happ _ _ (by decide) (hvals meta.dpiY (by simp)).1
  · exact happ _ _ (by decide) (hbool _)
  · exact happ _ _ (by decide) (hvals meta.exifOrientation (by simp)).1
  · exact happ _ _ (by decide) (hvals meta.software (by simp)).1
  · exact happ _ _ (by decide) hsha
  · exact happ _ _ (by decide) hmd5
  · exact happ _ _ (by decide) (hbool _)
  · exact happ _ _ (by decide) (hbool _)
  · decide
  · exact happ _ _ (by decide) (hrender _)
  · decide
  · exact happ _ _ (by decide) (hrender _)
  · decide

/-- Scanning an encoded manifest returns exactly the wrapped chunks. -/
theorem findBlocks_encodeLossless (blob : List Nat) (meta : LosslessMeta)
    (source : List Char) (cs lw : Nat) (hcs : 1 ≤ cs) (hlw : 1 ≤ lw)
    (hblob : ∀ b ∈ blob, b < 256) (hmeta : metaOk meta source) :
    findBlocks (encodeLossless blob meta source cs lw) =
      (pyChunks cs (b64Encode blob)).map (pyWrap lw) := by
  have hpostne : extraLines lw meta ++ instrLines ≠ [] := by
    intro h
    have := (List.append_eq_nil.1 h).2
    simp [instrLines] at this
  have hrestne : bodyLines lw (pyChunks cs (b64Encode blob)).length 1
      (pyChunks cs (b64Encode blob)) ++ (extraLines lw meta ++ instrLines) ≠ [] := by
    intro h
    exact hpostne (List.append_eq_nil.1 h).2
  have hheaderne : headerLines blob meta source (pyChunks cs (b64Encode blob)).length lw ≠ [] := by
    simp [headerLines]
  rw [encodeLossless, joinNl_append hheaderne hrestne]
  have hsplit : joinNl (headerLines blob meta source
        (pyChunks cs (b64Encode blob)).length lw) ++ '\n' ::
        joinNl (bodyLines lw (pyChunks cs (b64Encode blob)).length 1
          (pyChunks cs (b64Encode blob)) ++ (extraLines lw meta ++ instrLines)) =
      (joinNl (headerLines blob meta source
        (pyChunks cs (b64Encode blob)).length lw) ++ ['\n']) ++
        joinNl (bodyLines lw (pyChunks cs (b64Encode blob)).length 1
          (pyChunks cs (b64Encode blob)) ++ (extraLines lw meta ++ instrLines)) := by
    simp
  rw [hsplit]
  have hoccx : occursIn "CHUNK".toList
      (joinNl (headerLines blob meta source
        (pyChunks cs (b64Encode blob)).length lw) ++ ['\n']) = false := by
    by_contra hx
    rw [Bool.not_eq_false] at hx
    rcases occursIn_append_cons '\n' (by decide) hx with h1 | h1
    · rw [header_no_chunk blob meta source _ lw hmeta] at h1
      exact absurd h1 (by simp)
    · simp [occursIn, List.isPrefixOf] at h1
  have hlastx : (joinNl (headerLines blob meta source
      (pyChunks cs (b64Encode blob)).length lw) ++ ['\n']).getLast? = some '\n' := by
    rw [List.getLast?_append]
    rfl
  rw [findBlocks_skip _ _ (chunkStart_none_in_region hoccx hlastx _)]
  apply findBlocks_bodyChain lw hlw _ _ hpostne
    (post_no_endMarker lw meta (metaOk_icc hmeta) (metaOk_exif hmeta))
  intro p hp
  constructor
  · exact chunksOfF_ne_nil cs hcs _ _ (le_refl _) p hp
  · intro c hc
    exact b64Encode_mem blob hblob c (chunksOfF_mem cs _ _ p hp c hc)

theorem grabValue_miss {key l : List Char} (ls : List (List Char))
    (h : (key ++ [':']).isPrefixOf l = false) :
    grabValue key (l :: ls) = grabValue key ls := by
  simp [grabValue, h]

theorem grabValue_hit {key : List Char} (lit v : List Char) (ls : List (List Char))
    (hlit : lit = key ++ [':'] ++ [' ']) :
    grabValue key ((lit ++ v) :: ls) = some (pyStrip (' ' :: v)) := by
  subst hlit
  have hpre : (key ++ [':']).isPrefixOf ((key ++ [':'] ++ [' ']) ++ v) = true := by
    rw [isPrefixOf_eq_true_iff]
    exact ⟨' ' :: v, by simp⟩
  have hdrop : ((key ++ [':'] ++ [' ']) ++ v).drop (key.length + 1) = ' ' :: v := by
    have hsh : (key ++ [':'] ++ [' ']) ++ v = (key ++ [':']) ++ (' ' :: v) := by simp
    rw [hsh]
    have hl : (key ++ [':']).length = key.length + 1 := by simp
    rw [← hl, List.drop_left]
  simp only [grabValue, hpre, if_true, ite_true, hdrop]
  simp

/-- A key line cannot match when the pattern disagrees with the literal
part of the line. -/
theorem not_prefixOf_append {p lit v : List Char}
    (h : (p.take lit.length).isPrefixOf lit = false) :
    p.isPrefixOf (lit ++ v) = false := by
  by_contra hx
  rw [Bool.not_eq_false, isPrefixOf_eq_true_iff] at hx
  obtain ⟨u, hu⟩ := hx
  have htrue : (p.take lit.length).isPrefixOf lit = true := by
    rw [isPrefixOf_eq_true_iff]
    rcases Nat.le_total p.length lit.length with hle | hge
    · refine ⟨u.take (lit.length - p.length), ?_⟩
      have h1 : (p ++ u).take lit.length =
          p.take lit.length ++ u.take (lit.length - p.length) :=
        List.take_append_eq_append_take
      have h2 : (lit ++ v).take lit.length = lit := List.take_left lit v
      rw [← h1, hu, h2]
    · refine ⟨[], ?_⟩
      rw [List.append_nil]
      have h1 : (p ++ u).take lit.length = p.take lit.length :=
        List.take_append_of_le_length hge
      have h2 : (lit ++ v).take lit.length = lit := List.take_left lit v
      rw [← h1, hu, h2]
  rw [htrue] at h
  exact absurd h (by simp)

theorem pyStrip_cons_space (v : List Char) : pyStrip (' ' :: v) = pyStrip v := by
  have h : (' ' :: v).dropWhile isPySpace = v.dropWhile isPySpace := by
    rw [List.dropWhile_cons]
    simp [show isPySpace ' ' = true from by decide]
  rw [pyStrip, pyStrip, h]

theorem hex_not_space : ∀ c ∈ hexDigitsLower, isPySpace c = false := by decide

theorem hex_not_newline : '\n' ∉ hexDigitsLower := by decide

theorem digits_not_newline : '\n' ∉ decDigits := by decide

/-- The physical lines of an encoded manifest begin with the header lines
themselves. -/
theorem splitPhysLines_encodeLossless (blob : List Nat) (meta : LosslessMeta)
    (source : List Char) (cs lw : Nat) (hmeta : metaOk meta source) :
    ∃ rest, splitPhysLines (encodeLossless blob meta source cs lw) =
      headerLines blob meta source (pyChunks cs (b64Encode blob)).length lw ++ rest := by
  have hvals := hmeta.1
  have hpostne : extraLines lw meta ++ instrLines ≠ [] := by
    intro h
    have := (List.append_eq_nil.1 h).2
    simp [instrLines] at this
  have hrestne : bodyLines lw (pyChunks cs (b64Encode blob)).length 1
      (pyChunks cs (b64Encode blob)) ++ (extraLines lw meta ++ instrLines) ≠ [] := by
    intro h
    exact hpostne (List.append_eq_nil.1 h).2
  have hheaderne : headerLines blob meta source
      (pyChunks cs (b64Encode blob)).length lw ≠ [] := by
    simp [headerLines]
  refine ⟨splitPhysLines (joinNl (bodyLines lw (pyChunks cs (b64Encode blob)).length 1
    (pyChunks cs (b64Encode blob)) ++ (extraLines lw meta ++ instrLines))), ?_⟩
  rw [encodeLossless, joinNl_append hheaderne hrestne, splitPhysLines_append_nl,
    splitPhysLines_joinNl _ hheaderne]
  congr 1
  have hrender_nl : ∀ n, '\n' ∉ renderNat n := by
    intro n hmem
    have := renderNat_mem n '\n' hmem
    revert this; decide
  have hsha_nl : '\n' ∉ sha256Hex blob := by
    intro hmem
    have := sha256Hex_mem blob '\n' hmem
    revert this; decide
  have hmd5_nl : '\n' ∉ md5Hex blob := by
    intro hmem
    have := md5Hex_mem blob '\n' hmem
    revert this; decide
  have hbool_nl : ∀ b, '\n' ∉ pyBool b := by
    intro b; cases b <;> decide
  have happ_nl : ∀ (lit v : List Char), '\n' ∉ lit → '\n' ∉ v → '\n' ∉ lit ++ v := by
    intro lit v h1 h2 hmem
    rcases List.mem_append.1 hmem with h3 | h3
    · exact h1 h3
    · exact h2 h3
  have hall : ∀ l ∈ headerLines blob meta source
      (pyChunks cs (b64Encode blob)).length lw, splitPhysLines l = [l] := by
    intro l hl
    apply splitPhysLines_eq_self
    simp only [headerLines, List.mem_cons, List.not_mem_nil, or_false] at hl
    rcases hl with rfl | rfl | rfl | rfl | rfl | rfl | rfl | rfl | rfl | rfl | rfl |
      rfl | rfl | rfl | rfl | rfl | rfl | rfl | rfl | rfl | rfl | rfl | rfl
    · decide
    · exact happ_nl _ _ (by decide) (hvals source (by simp)).2
    · exact happ_nl _ _ (by decide) (hvals meta.filename (by simp)).2
    · exact happ_nl _ _ (by decide) (hvals meta.mimeType (by simp)).2
    · exact happ_nl _ _ (by decide) (hrender_nl _)
    · exact happ_nl _ _ (by decide) (hrender_nl _)
    · exact happ_nl _ _ (by decide) (hrender_nl _)
    · exact happ_nl _ _ (by decide) (hvals meta.colorMode (by simp)).2
    · exact happ_nl _ _ (by decide) (hrender_nl _)
    · exact happ_nl _ _ (by decide) (hvals meta.dpiX (by simp)).2
    · exact happ_nl _ _ (by decide) (hvals meta.dpiY (by simp)).2
    · exact happ_nl _ _ (by decide) (hbool_nl _)
    · exact happ_nl _ _ (by decide) (hvals meta.exifOrientation (by simp)).2
    · exact happ_nl _ _ (by decide) (hvals meta.software (by simp)).2
    · exact happ_nl _ _ (by decide) hsha_nl
    · exact happ_nl _ _ (by decide) hmd5_nl
    · exact happ_nl _ _ (by decide) (hbool_nl _)
    · exact happ_nl _ _ (by decide) (hbool_nl _)
    · decide
    · exact happ_nl _ _ (by decide) (hrender_nl _)
    · decide
    · exact happ_nl _ _ (by decide) (hrender_nl _)
    · decide
  calc (headerLines blob meta source (pyChunks cs (b64Encode blob)).length
        lw).flatMap splitPhysLines
      = (headerLines blob meta source (pyChunks cs (b64Encode blob)).length
          lw).flatMap (fun l => [l]) := List.flatMap_congr hall
    _ = headerLines blob meta source (pyChunks cs (b64Encode blob)).length lw := by
        simp

theorem pyGrab_filename_encode (blob : List Nat) (meta : LosslessMeta)
    (source : List Char) (cs lw : Nat) (hmeta : metaOk meta source) :
    pyGrab "filename".toList (encodeLossless blob meta source cs lw) =
      some (pyStrip meta.filename) := by
  obtain ⟨rest, hsplit⟩ := splitPhysLines_encodeLossless blob meta source cs lw hmeta
  rw [pyGrab, hsplit]
  simp only [headerLines, List.cons_append, List.nil_append]
  rw [grabValue_miss _ (by decide)]
  rw [grabValue_miss _ (not_prefixOf_append (by decide))]
  rw [grabValue_hit _ _ _ (by decide)]
  rw [pyStrip_cons_space]

theorem pyGrab_sha256_encode (blob : List Nat) (meta : LosslessMeta)
    (source : List Char) (cs lw : Nat) (hmeta : metaOk meta source) :
    pyGrab "sha256".toList (encodeLossless blob meta source cs lw) =
      some (sha256Hex blob) := by
  obtain ⟨rest, hsplit⟩ := splitPhysLines_encodeLossless blob meta source cs lw hmeta
  rw [pyGrab, hsplit]
  simp only [headerLines, List.cons_append, List.nil_append]
  rw [grabValue_miss _ (by decide)]
  rw [grabValue_miss _ (not_prefixOf_append (by decide))]
  rw [grabValue_miss _ (not_prefixOf_append (by decide))]
  rw [grabValue_miss _ (not_prefixOf_append (by decide))]
  rw [grabValue_miss _ (not_prefixOf_append (by decide))]
  rw [grabValue_miss _ (not_prefixOf_append (by decide))]
  rw [grabValue_miss _ (not_prefixOf_append (by decide))]
  rw [grabValue_miss _ (not_prefixOf_append (by decide))]
  rw [grabValue_miss _ (not_prefixOf_append (by decide))]
  rw [grabValue_miss _ (not_prefixOf_append (by decide))]
  rw [grabValue_miss _ (not_prefixOf_append (by decide))]
  rw [grabValue_miss _ (not_prefixOf_append (by decide))]
  rw [grabValue_miss _ (not_prefixOf_append (by decide))]
  rw [grabValue_miss _ (not_prefixOf_append (by decide))]
  rw [grabValue_hit _ _ _ (by decide)]
  rw [pyStrip_cons_space,
    pyStrip_eq_self (fun c hc => hex_not_space c (sha256Hex_mem blob c hc))]

theorem pyGrab_chunkCount_encode (blob : List Nat) (meta : LosslessMeta)
    (source : List Char) (cs lw : Nat) (hmeta : metaOk meta source) :
    pyGrab "chunk_count".toList (encodeLossless blob meta source cs lw) =
      some (renderNat (pyChunks cs (b64Encode blob)).length) := by
  obtain ⟨rest, hsplit⟩ := splitPhysLines_encodeLossless blob meta source cs lw hmeta
  rw [pyGrab, hsplit]
  simp only [headerLines, List.cons_append, List.nil_append]
  rw [grabValue_miss _ (by decide)]
  rw [grabValue_miss _ (not_prefixOf_append (by decide))]
  rw [grabValue_miss _ (not_prefixOf_append (by decide))]
  rw [grabValue_miss _ (not_prefixOf_append (by decide))]
  rw [grabValue_miss _ (not_prefixOf_append (by decide))]
  rw [grabValue_miss _ (not_prefixOf_append (by decide))]
  rw [grabValue_miss _ (not_prefixOf_append (by decide))]
  rw [grabValue_miss _ (not_prefixOf_append (by decide))]
  rw [grabValue_miss _ (not_prefixOf_append (by decide))]
  rw [grabValue_miss _ (not_prefixOf_append (by decide))]
  rw [grabValue_miss _ (not_prefixOf_append (by decide))]
  rw [grabValue_miss _ (not_prefixOf_append (by decide))]
  rw [grabValue_miss _ (not_prefixOf_append (by decide))]
  rw [grabValue_miss _ (not_prefixOf_append (by decide))]
  rw [grabValue_miss _ (not_prefixOf_append (by decide))]
  rw [grabValue_miss _ (not_prefixOf_append (by decide))]
  rw [grabValue_miss _ (not_prefixOf_append (by decide))]
  rw [grabValue_miss _ (not_prefixOf_append (by decide))]
  rw [grabValue_miss _ (by decide)]
  rw [grabValue_hit _ _ _ (by decide)]
  rw [pyStrip_cons_space,
    pyStrip_eq_self (fun c hc => by
      have := renderNat_mem _ c hc
      exact digit_not_space (digit_isPyDigit c this))]

theorem renderNat_cons (n : Nat) : ∃ d ds, renderNat n = d :: ds := by
  cases h : renderNat n with
  | nil => exact absurd h (renderNat_ne_nil n)
  | cons d ds => exact ⟨d, ds, rfl⟩

theorem pyInt_renderNat (n : Nat) : pyInt (renderNat n) = some (n : Int) := by
  have hstrip : pyStrip (renderNat n) = renderNat n :=
    pyStrip_eq_self fun c hc => digit_not_space (digit_isPyDigit c (renderNat_mem n c hc))
  rw [pyInt, hstrip]
  obtain ⟨d, ds, hds⟩ := renderNat_cons n
  have hd : d ≠ '-' := by
    intro he
    have := renderNat_mem n d (hds ▸ List.mem_cons_self d ds)
    rw [he] at this
    revert this; decide
  rw [hds]
  rw [if_neg (by simp [hd])]
  rw [← hds, parseDigits_renderNat]
  rfl

theorem b64Alphabet_not_space : ∀ c ∈ b64Alphabet, isPySpace c = false := by decide

/-- Full decode-of-encode: the decoder accepts the manifest and returns
the original bytes. -/
theorem decodeLossless_encodeLossless (blob : List Nat) (meta : LosslessMeta)
    (source : List Char) (cs lw : Nat) (hcs : 1 ≤ cs) (hlw : 1 ≤ lw)
    (hblob : ∀ b ∈ blob, b < 256) (hmeta : metaOk meta source) :
    decodeLossless (encodeLossless blob meta source cs lw) =
      .ok ⟨pyStrip meta.filename,
        pyGrab "mime_type".toList (encodeLossless blob meta source cs lw), blob⟩ := by
  have hfn := pyGrab_filename_encode blob meta source cs lw hmeta
  have hsha := pyGrab_sha256_encode blob meta source cs lw hmeta
  have hcc := pyGrab_chunkCount_encode blob meta source cs lw hmeta
  have hblocks := findBlocks_encodeLossless blob meta source cs lw hcs hlw hblob hmeta
  have hccRaw : declaredChunkCountRaw (encodeLossless blob meta source cs lw) =
      renderNat (pyChunks cs (b64Encode blob)).length := by
    rw [declaredChunkCountRaw, hcc]
    obtain ⟨d, ds, hds⟩ := renderNat_cons (pyChunks cs (b64Encode blob)).length
    rw [hds]
  rw [decodeLossless, hfn, hsha, hccRaw, hblocks, pyInt_renderNat]
  have hlen : (((pyChunks cs (b64Encode blob)).map (pyWrap lw)).length : Int) =
      ((pyChunks cs (b64Encode blob)).length : Nat) := by
    simp
  have hreassemble :
      reassembledB64 (encodeLossless blob meta source cs lw) = b64Encode blob := by
    rw [reassembledB64, hblocks, List.map_map]
    have hid : ∀ c ∈ pyChunks cs (b64Encode blob),
        (pyStrip ∘ removeNewlines ∘ pyWrap lw) c = c := by
      intro c hcmem
      have hchar : ∀ x ∈ c, x ∈ b64Alphabet ∨ x = '=' := by
        intro x hx
        exact b64Encode_mem blob hblob x (chunksOfF_mem cs _ _ c hcmem x hx)
      have hnl : '\n' ∉ c := by
        intro hmem
        rcases hchar '\n' hmem with h1 | h1
        · revert h1; decide
        · exact absurd h1 (by decide)
      simp only [Function.comp_apply]
      rw [removeNewlines_pyWrap lw hlw c hnl]
      apply pyStrip_eq_self
      intro x hx
      rcases hchar x hx with h1 | h1
      · exact b64Alphabet_not_space x h1
      · rw [h1]; decide
    calc ((pyChunks cs (b64Encode blob)).map (pyStrip ∘ removeNewlines ∘ pyWrap lw)).flatten
        = ((pyChunks cs (b64Encode blob)).map id).flatten := by
          congr 1
          exact List.map_congr_left hid
      _ = b64Encode blob := by
          rw [List.map_id]
          exact pyChunks_flatten cs hcs (b64Encode blob)
  simp only [hlen]
  rw [if_neg (by simp)]
  rw [hreassemble, pyB64Decode_b64Encode blob hblob]
  simp

/-- Inverting a successful decode: all checks passed. -/
theorem decodeLossless_ok_inversion {t : List Char} {out : LosslessOut}
    (h : decodeLossless t = .ok out) :
    (∃ cc, pyInt (declaredChunkCountRaw t) = some cc ∧
      ((findBlocks t).length : Int) = cc) ∧
    pyB64Decode (reassembledB64 t) = some out.blob ∧
    pyGrab "sha256".toList t = some (sha256Hex out.blob) ∧
    pyGrab "filename".toList t = some out.filename := by
  rw [decodeLossless] at h
  split at h
  case h_1 => exact absurd h (by simp)
  case h_2 cc hcc =>
    split at h
    case isTrue => exact absurd h (by simp)
    case isFalse hcount =>
      split at h
      case h_1 => exact absurd h (by simp)
      case h_2 blob hblob =>
        split at h
        case h_2 => exact absurd h (by simp)
        case h_1 shav hshav =>
          split at h
          case isTrue => exact absurd h (by simp)
          case isFalse hshaeq =>
            split at h
            case h_1 => exact absurd h (by simp)
            case h_2 fn hfn =>
              simp only [Except.ok.injEq] at h
              subst h
              push_neg at hcount hshaeq
              refine ⟨⟨cc, hcc, hcount⟩, hblob, ?_, hfn⟩
              rw [hshav, hshaeq]

theorem decodeLossless_count_mismatch {t : List Char} {cc : Int}
    (hcc : pyInt (declaredChunkCountRaw t) = some cc)
    (hne : ((findBlocks t).length : Int) ≠ cc) :
    decodeLossless t = .error .chunkCountMismatch := by
  rw [decodeLossless, hcc]
  simp only [if_pos hne]

theorem decodeLossless_sha_mismatch {t : List Char} {cc : Int} {blob : List Nat}
    {s : List Char}
    (hcc : pyInt (declaredChunkCountRaw t) = some cc)
    (heq : ((findBlocks t).length : Int) = cc)
    (hb : pyB64Decode (reassembledB64 t) = some blob)
    (hs : pyGrab "sha256".toList t = some s)
    (hne : sha256Hex blob ≠ s) :
    decodeLossless t = .error .shaMismatch := by
  rw [decodeLossless, hcc]
  have h1 : ¬(((findBlocks t).length : Int) ≠ cc) := by simp [heq]
  simp only [if_neg h1, hb, hs, if_pos hne]

/-- Concrete metadata for the witness instances (as PIL would provide for
a small RGB PNG). -/
def sampleMeta : LosslessMeta :=
  { filename := "img.png".toList, mimeType := "image/png".toList,
    width := 2, height := 2, colorMode := "RGB".toList, bitDepth := 8,
    dpiX := "null".toList, dpiY := "null".toList, hasAlpha := false,
    exifOrientation := "null".toList, software := "null".toList,
    iccB64 := none, exifBytes := none }

def sampleManifest : List Char :=
  encodeLossless [1, 2, 3] sampleMeta "user_upload".toList 4 5

theorem sampleMeta_ok : metaOk sampleMeta "user_upload".toList :=
  ⟨by decide, by decide, trivial, trivial⟩

/-! ## Claim theorems (lossless tier and shared primitives) -/

/-- C1 — Lossless round trip: for every byte buffer `B` (and every
well-formed PIL metadata rendering), decoding the manifest produced by
encoding `B` succeeds and yields exactly `B`, and the SHA-256 of the
decoded bytes equals the digest declared in the manifest header; this
holds for every `chunk_size ≥ 1` and every `line_width ≥ 1` used at
encode time. -/
theorem claim_C1_lossless_roundtrip (blob : List Nat) (meta : LosslessMeta)
    (source : List Char) (cs lw : Nat) (hcs : 1 ≤ cs) (hlw : 1 ≤ lw)
    (hblob : ∀ b ∈ blob, b < 256) (hmeta : metaOk meta source) :
    ∃ out, decodeLossless (encodeLossless blob meta source cs lw) = .ok out ∧
      out.blob = blob ∧
      pyGrab "sha256".toList (encodeLossless blob meta source cs lw) =
        some (sha256Hex out.blob) :=
  ⟨_, decodeLossless_encodeLossless blob meta source cs lw hcs hlw hblob hmeta, rfl,
    pyGrab_sha256_encode blob meta source cs lw hmeta⟩

/-- Witness for C1 at a concrete buffer, chunk size 4 and line width 5. -/
theorem claim_C1_witness :
    ∃ out, decodeLossless (encodeLossless [1, 2, 3] sampleMeta
        "user_upload".toList 4 5) = .ok out ∧
      out.blob = [1, 2, 3] ∧
      pyGrab "sha256".toList (encodeLossless [1, 2, 3] sampleMeta
        "user_upload".toList 4 5) = some (sha256Hex out.blob) :=
  claim_C1_lossless_roundtrip [1, 2, 3] sampleMeta "user_upload".toList 4 5
    (by decide) (by decide) (by decide) sampleMeta_ok

/-- C5 — Lossless chunking: the encoder splits the base64 text (not the
decoded bytes) into `chunkSize`-character pieces, so the number of
emitted `CHUNK` blocks and the declared `chunk_count` both equal
`ceil(len(base64(B)) / chunkSize)`. -/
theorem claim_C5_chunk_count (blob : List Nat) (meta : LosslessMeta)
    (source : List Char) (cs lw : Nat) (hcs : 1 ≤ cs) (hlw : 1 ≤ lw)
    (hblob : ∀ b ∈ blob, b < 256) (hmeta : metaOk meta source) :
    (pyChunks cs (b64Encode blob)).length =
      ((b64Encode blob).length + cs - 1) / cs ∧
    (findBlocks (encodeLossless blob meta source cs lw)).length =
      ((b64Encode blob).length + cs - 1) / cs ∧
    pyGrab "chunk_count".toList (encodeLossless blob meta source cs lw) =
      some (renderNat (((b64Encode blob).length + cs - 1) / cs)) := by
  have hlen := pyChunks_length cs hcs (b64Encode blob)
  refine ⟨hlen, ?_, ?_⟩
  · rw [findBlocks_encodeLossless blob meta source cs lw hcs hlw hblob hmeta]
    simp [hlen]
  · rw [pyGrab_chunkCount_encode blob meta source cs lw hmeta, hlen]

/-- Witness for C5: three bytes base64-encode to four characters, so
chunk size 3 yields `ceil(4/3) = 2` blocks. -/
theorem claim_C5_witness :
    (pyChunks 3 (b64Encode [1, 2, 3])).length =
      ((b64Encode [1, 2, 3]).length + 3 - 1) / 3 ∧
    (findBlocks (encodeLossless [1, 2, 3] sampleMeta
      "user_upload".toList 3 5)).length =
      ((b64Encode [1, 2, 3]).length + 3 - 1) / 3 ∧
    pyGrab "chunk_count".toList (encodeLossless [1, 2, 3] sampleMeta
      "user_upload".toList 3 5) =
      some (renderNat (((b64Encode [1, 2, 3]).length + 3 - 1) / 3)) :=
  claim_C5_chunk_count [1, 2, 3] sampleMeta "user_upload".toList 3 5
    (by decide) (by decide) (by decide) sampleMeta_ok

set_option maxRecDepth 400000 in
/-- C4 — Lossless decode integrity failures: a parsed-block count that
differs from the declared `chunk_count` fails with the count-mismatch
error; a digest mismatch (blocks matching the count, base64 decodable)
fails with the distinct digest-mismatch error; the integrity errors are
distinct from each other and from the input-validation errors; and
tampering one character inside a chunk body of a concrete encoded
manifest makes decode fail with the digest-mismatch integrity error. -/
theorem claim_C4_integrity_failures :
    (∀ (t : List Char) (cc : Int),
      pyInt (declaredChunkCountRaw t) = some cc →
      ((findBlocks t).length : Int) ≠ cc →
      decodeLossless t = .error .chunkCountMismatch) ∧
    (∀ (t : List Char) (cc : Int) (blob : List Nat) (s : List Char),
      pyInt (declaredChunkCountRaw t) = some cc →
      ((findBlocks t).length : Int) = cc →
      pyB64Decode (reassembledB64 t) = some blob →
      pyGrab "sha256".toList t = some s →
      sha256Hex blob ≠ s →
      decodeLossless t = .error .shaMismatch) ∧
    (LosslessErr.chunkCountMismatch ≠ LosslessErr.shaMismatch ∧
      LosslessErr.chunkCountMismatch ≠ LosslessErr.badBase64 ∧
      LosslessErr.chunkCountMismatch ≠ LosslessErr.badChunkCountLiteral ∧
      LosslessErr.shaMismatch ≠ LosslessErr.badBase64 ∧
      LosslessErr.shaMismatch ≠ LosslessErr.badChunkCountLiteral) ∧
    decodeLossless (sampleManifest.set 461 'B') = .error .shaMismatch := by
  refine ⟨?_, ?_, by refine ⟨?_, ?_, ?_, ?_, ?_⟩ <;> decide, ?_⟩
  · intro t cc hcc hne
    exact decodeLossless_count_mismatch hcc hne
  · intro t cc blob s hcc heq hb hs hne
    exact decodeLossless_sha_mismatch hcc heq hb hs hne
  · rfl

/-- Witness for C4: a text declaring two chunks but containing none fails
with the count-mismatch error. -/
theorem claim_C4_witness :
    decodeLossless "chunk_count: 2".toList = .error .chunkCountMismatch :=
  claim_C4_integrity_failures.1 "chunk_count: 2".toList 2 (by decide) (by decide)

/-- C2 — Run-length round trip: decoding an encoding reproduces any
integer sequence (the empty sequence maps to the empty run list), and for
any run list with positive counts the decoded length is the sum of the
counts. -/
theorem claim_C2_rle_roundtrip :
    (∀ s : List Int, rleDecode (rleEncode s) = s) ∧
    rleEncode [] = [] ∧
    (∀ R : List (Int × Int), (∀ p ∈ R, 0 < p.1) →
      ((rleDecode R).length : Int) = (R.map (fun p => p.1)).sum) :=
  ⟨rleDecode_rleEncode, rfl, length_rleDecode_of_pos⟩

/-- Witness for C2 at concrete sequences. -/
theorem claim_C2_witness :
    rleDecode (rleEncode [1, 1, 2]) = [1, 1, 2] ∧
    ((rleDecode [((2 : Int), (5 : Int)), (1, 7)]).length : Int) =
      ([((2 : Int), (5 : Int)), (1, 7)].map (fun p => p.1)).sum :=
  ⟨claim_C2_rle_roundtrip.1 [1, 1, 2],
    claim_C2_rle_roundtrip.2.2 [((2 : Int), (5 : Int)), (1, 7)] (by decide)⟩

/-- C7 — Quadrant bisection determinism: for a 5×5 image the encoder's
crop boxes are exactly the listed floor-division boxes, the decoder's
fill boxes are the same, and the two constructions agree on every input
size (both are pure functions of the dimensions, so the partition is
identical on every run over identical input). -/
theorem claim_C7_quadrant_bisection :
    nlpEncodeQuads 5 5 =
      [ ("top_left".toList,     (0, 0, 2, 2)),
        ("top_right".toList,    (2, 0, 5, 2)),
        ("bottom_left".toList,  (0, 2, 2, 5)),
        ("bottom_right".toList, (2, 2, 5, 5)) ] ∧
    nlpDecodeQuadBoxes 5 5 =
      [ ("top_left".toList,     (0, 0, 2, 2)),
        ("top_right".toList,    (2, 0, 5, 2)),
        ("bottom_left".toList,  (0, 2, 2, 5)),
        ("bottom_right".toList, (2, 2, 5, 5)) ] ∧
    ∀ w h, nlpEncodeQuads w h = nlpDecodeQuadBoxes w h :=
  ⟨by decide, by decide, fun w h => rfl⟩

/-- C10 — Lossless decode atomicity: a decode call writes the output file
only on the success path; any failure (bad count literal, count mismatch,
base64 error, digest mismatch, missing filename) produces no write, and a
success implies both integrity checks passed. -/
theorem claim_C10_decode_atomicity (t : List Char) :
    (∀ e, decodeLossless t = .error e → decodeLosslessWrites t = []) ∧
    (∀ out, decodeLossless t = .ok out →
      decodeLosslessWrites t = [(out.filename, out.blob)] ∧
      (∃ cc, pyInt (declaredChunkCountRaw t) = some cc ∧
        ((findBlocks t).length : Int) = cc) ∧
      pyGrab "sha256".toList t = some (sha256Hex out.blob)) := by
  constructor
  · intro e he
    rw [decodeLosslessWrites, he]
  · intro out hout
    refine ⟨by rw [decodeLosslessWrites, hout], ?_, ?_⟩
    · exact (decodeLossless_ok_inversion hout).1
    · exact (decodeLossless_ok_inversion hout).2.2.1

set_option maxRecDepth 100000 in
/-- Witness for C10: the empty text fails the digest check (no declared
digest), so no file is written. -/
theorem claim_C10_witness : decodeLosslessWrites [] = [] :=
  (claim_C10_decode_atomicity []).1 .shaMismatch (by rfl)

/-! ## Lossy-algo tier (`encode_lossy_algo_to_text` /
`decode_lossy_algo_text_to_image`)

The JSON payload is modelled as a structure holding exactly the fields
the decoder reads (plus the declared `palette_size_actual` and
`index_bit_depth`, which the decoder ignores).  PIL supplies the
quantized palette, the index buffer and the alpha channel; they enter
the encoder model as inputs. -/

/-- `int.bit_length()` for a natural number. -/
def pyBitLength (n : Nat) : Nat := if n = 0 then 0 else Nat.log2 n + 1

/-- The decoded JSON payload of a lossy-algo manifest (fields used by
`decode_lossy_algo_text_to_image`; `schema` is `payload.get("schema")`). -/
structure AlgoPayload where
  schema : Option (List Char)
  resultW : Nat
  resultH : Nat
  paletteHex : List (List Char)
  paletteSizeActual : Nat
  indexBitDepth : Nat
  pixelsRle : List (Int × Int)
  alphaRle : Option (List (Int × Int))
  deriving Repr, DecidableEq

/-- The image rebuilt by the decoder: RGB pixels in raster order, with
an optional alpha channel. -/
structure AlgoImage where
  width : Nat
  height : Nat
  pixels : List (Nat × Nat × Nat)
  alpha : Option (List Int)
  deriving Repr, DecidableEq

/-- One constructor per `raise ValueError` site of the decoder after the
JSON stage. -/
inductive AlgoErr where
  | unsupportedSchema
  | pixelCountMismatch
  | badPaletteHex
  | alphaLengthMismatch
  deriving Repr, DecidableEq

/-- The palette-entry parse of the decoder loop:
`hexcol.lstrip("#")` then `int(hexcol[0:2], 16)`, `int(hexcol[2:4], 16)`,
`int(hexcol[4:6], 16)` (an unparsable slice raises `ValueError`). -/
def parseHexColor (s : List Char) : Option (Nat × Nat × Nat) :=
  let t := s.dropWhile (fun c => c = '#')
  match parseHexByte (t.take 2), parseHexByte ((t.drop 2).take 2),
      parseHexByte ((t.drop 4).take 2) with
  | some r, some g, some b => some (r, g, b)
  | _, _, _ => none

/-- Sequence `parseHexColor` over the palette list (the decoder's
`for hexcol in pal_hex` loop; the first bad entry raises). -/
def parsePalette : List (List Char) → Option (List (Nat × Nat × Nat))
  | [] => some []
  | s :: rest =>
    match parseHexColor s, parsePalette rest with
    | some c, some cs => some (c :: cs)
    | _, _ => none

/-- `decode_lossy_algo_text_to_image` after the JSON stage: schema gate,
pixel-count check (before the palette parse), palette padded to 256
entries with `(0,0,0)`, index lookup via the padded palette (the `P`→`RGB`
conversion), and the `if alpha_rle:` truthiness test (absent and empty
run lists are both falsy). -/
def decodeAlgoPayload (p : AlgoPayload) : Except AlgoErr AlgoImage :=
  if p.schema = some "IMG-ALGO-LOSSY v2".toList ∨
      p.schema = some "IMG-ALGO-LOSSY v1".toList then
    let idxs := rleDecode p.pixelsRle
    if idxs.length ≠ p.resultW * p.resultH then .error .pixelCountMismatch
    else
      match parsePalette p.paletteHex with
      | none => .error .badPaletteHex
      | some pal =>
        let palFull := pal ++ List.replicate (256 - p.paletteHex.length) (0, 0, 0)
        let pixels := idxs.map (fun v => palFull.getD v.toNat (0, 0, 0))
        match p.alphaRle with
        | some ar =>
          if ar ≠ [] then
            let a := rleDecode ar
            if a.length ≠ p.resultW * p.resultH then .error .alphaLengthMismatch
            else .ok ⟨p.resultW, p.resultH, pixels, some a⟩
          else .ok ⟨p.resultW, p.resultH, pixels, none⟩
        | none => .ok ⟨p.resultW, p.resultH, pixels, none⟩
  else .error .unsupportedSchema

/-- The imaging inputs of `encode_lossy_algo_to_text` as provided by PIL:
the original (RGB-converted) dimensions, the alpha flag, the resampled
dimensions chosen on the `lock_dims=False` branch, the quantized palette
triples (`trip`), the palette-index buffer (`imgP.getdata()`) and the
alpha channel data. -/
structure AlgoEncInput where
  ow : Nat
  oh : Nat
  hasAlpha : Bool
  nw : Nat
  nh : Nat
  pal : List (Nat × Nat × Nat)
  idxs : List Int
  alphaData : List Int

/-- The payload dict built by `encode_lossy_algo_to_text`.  With
`lock_dims` the result size is the original size; `pal` is
`trip[:palette_size]`; `act_palette` counts the non-`None` entries, and
tuples are never `None`, so it is the length of `pal`;
`index_bits = max(1, (act_palette - 1).bit_length())`. -/
def encodeAlgoPayload (inp : AlgoEncInput) (lockDims : Bool)
    (paletteSize : Nat) : AlgoPayload :=
  let nw := if lockDims then inp.ow else inp.nw
  let nh := if lockDims then inp.oh else inp.nh
  let pal := inp.pal.take paletteSize
  let act := pal.length
  { schema := some "IMG-ALGO-LOSSY v2".toList
    resultW := nw
    resultH := nh
    paletteHex :=
      pal.map (fun c => '#' :: (toHex2U c.1 ++ toHex2U c.2.1 ++ toHex2U c.2.2))
    paletteSizeActual := act
    indexBitDepth := max 1 (pyBitLength (act - 1))
    pixelsRle := rleEncode inp.idxs
    alphaRle := if inp.hasAlpha then some (rleEncode inp.alphaData) else none }

theorem decodeAlgoPayload_pixel_mismatch (p : AlgoPayload)
    (hs : p.schema = some "IMG-ALGO-LOSSY v2".toList ∨
      p.schema = some "IMG-ALGO-LOSSY v1".toList)
    (hne : (rleDecode p.pixelsRle).length ≠ p.resultW * p.resultH) :
    decodeAlgoPayload p = .error .pixelCountMismatch := by
  rw [decodeAlgoPayload, if_pos hs]
  simp only [if_pos hne]

theorem decodeAlgoPayload_alpha_mismatch (p : AlgoPayload)
    (hs : p.schema = some "IMG-ALGO-LOSSY v2".toList ∨
      p.schema = some "IMG-ALGO-LOSSY v1".toList)
    (hlen : (rleDecode p.pixelsRle).length = p.resultW * p.resultH)
    {pal : List (Nat × Nat × Nat)}
    (hpal : parsePalette p.paletteHex = some pal)
    {ar : List (Int × Int)}
    (har : p.alphaRle = some ar) (hne0 : ar ≠ [])
    (hna : (rleDecode ar).length ≠ p.resultW * p.resultH) :
    decodeAlgoPayload p = .error .alphaLengthMismatch := by
  rw [decodeAlgoPayload, if_pos hs]
  have h1 : ¬((rleDecode p.pixelsRle).length ≠ p.resultW * p.resultH) := by
    simp [hlen]
  simp only [if_neg h1, hpal, har, if_pos hne0, if_pos hna]

theorem decodeAlgoPayload_schema_iff (p : AlgoPayload) :
    decodeAlgoPayload p ≠ .error .unsupportedSchema ↔
      (p.schema = some "IMG-ALGO-LOSSY v2".toList ∨
        p.schema = some "IMG-ALGO-LOSSY v1".toList) := by
  constructor
  · intro h
    by_contra hs
    exact h (by rw [decodeAlgoPayload, if_neg hs])
  · intro hs hcontra
    rw [decodeAlgoPayload, if_pos hs] at hcontra
    by_cases h1 : (rleDecode p.pixelsRle).length ≠ p.resultW * p.resultH
    · simp only [if_pos h1] at hcontra
      exact absurd hcontra (by simp)
    · simp only [if_neg h1] at hcontra
      cases hpal : parsePalette p.paletteHex with
      | none =>
        simp only [hpal] at hcontra
        exact absurd hcontra (by simp)
      | some pal =>
        simp only [hpal] at hcontra
        cases har : p.alphaRle with
        | none =>
          simp only [har] at hcontra
          exact absurd hcontra (by simp)
        | some ar =>
          simp only [har] at hcontra
          by_cases h2 : ar = []
          · rw [if_neg (by simp [h2])] at hcontra
            exact absurd hcontra (by simp)
          · rw [if_pos h2] at hcontra
            by_cases h3 : (rleDecode ar).length ≠ p.resultW * p.resultH
            · simp only [if_pos h3] at hcontra
              exact absurd hcontra (by simp)
            · simp only [if_neg h3] at hcontra
              exact absurd hcontra (by simp)

theorem rleEncodeAux_replicate (v : Int) :
    ∀ (n : Nat) (c : Int), 1 ≤ c → c + n ≤ 2 ^ 31 - 1 →
      rleEncodeAux v c (List.replicate n v) = [(c + n, v)] := by
  intro n
  induction n with
  | zero =>
    intro c h1 h2
    simp [rleEncodeAux]
  | succ m ih =>
    intro c h1 h2
    have hcast : ((m + 1 : Nat) : Int) = (m : Int) + 1 := by push_cast; ring
    rw [hcast] at h2 ⊢
    rw [List.replicate_succ, rleEncodeAux,
      if_pos ⟨rfl, by omega⟩, ih (c + 1) (by omega) (by omega)]
    have : c + 1 + (m : Int) = c + ((m : Int) + 1) := by ring
    rw [this]

theorem rleEncode_replicate (v : Int) (n : Nat) (h1 : 1 ≤ n)
    (h2 : (n : Int) ≤ 2 ^ 31 - 1) :
    rleEncode (List.replicate n v) = [((n : Int), v)] := by
  obtain ⟨m, rfl⟩ : ∃ m, n = m + 1 := ⟨n - 1, by omega⟩
  have hcast : ((m + 1 : Nat) : Int) = (m : Int) + 1 := by push_cast; ring
  rw [List.replicate_succ, rleEncode,
    rleEncodeAux_replicate v m 1 (le_refl 1) (by rw [hcast] at h2; omega)]
  rw [hcast]
  have : (1 : Int) + (m : Int) = (m : Int) + 1 := by ring
  rw [this]

theorem parseHexColor_hash_toHex2U (r g b : Nat)
    (hr : r < 256) (hg : g < 256) (hb : b < 256) :
    parseHexColor ('#' :: (toHex2U r ++ toHex2U g ++ toHex2U b)) =
      some (r, g, b) := by
  have hdw : ('#' :: (toHex2U r ++ toHex2U g ++ toHex2U b)).dropWhile
      (fun c => c = '#') = toHex2U r ++ toHex2U g ++ toHex2U b := by
    have hne : ¬((fun c => decide (c = '#')) (hexCharU (r / 16)) = true) := by
      simp only [decide_eq_true_eq]
      have h16 : r / 16 % 16 < 16 := Nat.mod_lt _ (by omega)
      have hall : ∀ j < 16, ¬(hexDigitsUpper.getD j '0' = '#') := by decide
      exact hall _ h16
    rw [List.dropWhile_cons_of_pos (by decide)]
    show (hexCharU (r / 16) :: (hexCharU r :: (toHex2U g ++ toHex2U b))).dropWhile
      (fun c => decide (c = '#')) = _
    rw [List.dropWhile_cons, if_neg hne]
    rfl
  have e1 : (toHex2U r ++ toHex2U g ++ toHex2U b).take 2 = toHex2U r := rfl
  have e2 : ((toHex2U r ++ toHex2U g ++ toHex2U b).drop 2).take 2 = toHex2U g := rfl
  have e3 : ((toHex2U r ++ toHex2U g ++ toHex2U b).drop 4).take 2 = toHex2U b := rfl
  simp only [parseHexColor, hdw, e1, e2, e3, parseHexByte_toHex2U r hr,
    parseHexByte_toHex2U g hg, parseHexByte_toHex2U b hb]

/-- C3 — Lossy-algo pixel conservation: under the PIL contract (the index
buffer has one entry per result pixel, each index is a valid palette
position, and the alpha channel has one entry per result pixel), the
counts in `pixels_rle` sum to `result_width * result_height`, every value
in `pixels_rle` is a valid index below `palette_size_actual`, and the
counts of a present `alpha_rle` also sum to the pixel count; on the
decoder side, an expanded pixel or alpha length differing from
`width * height` raises the corresponding error. -/
theorem claim_C3_pixel_conservation (inp : AlgoEncInput) (lockDims : Bool)
    (ps : Nat) (p : AlgoPayload) (hp : p = encodeAlgoPayload inp lockDims ps)
    (hpix : inp.idxs.length = p.resultW * p.resultH)
    (hidx : ∀ v ∈ inp.idxs, 0 ≤ v ∧ v < (p.paletteSizeActual : Int))
    (halpha : inp.hasAlpha = true →
      inp.alphaData.length = p.resultW * p.resultH) :
    ((p.pixelsRle.map (fun q => q.1)).sum = ((p.resultW * p.resultH : Nat) : Int)) ∧
    (∀ q ∈ p.pixelsRle, 0 ≤ q.2 ∧ q.2 < (p.paletteSizeActual : Int)) ∧
    (∀ A, p.alphaRle = some A →
      (A.map (fun q => q.1)).sum = ((p.resultW * p.resultH : Nat) : Int)) ∧
    (∀ q : AlgoPayload,
      (q.schema = some "IMG-ALGO-LOSSY v2".toList ∨
        q.schema = some "IMG-ALGO-LOSSY v1".toList) →
      (rleDecode q.pixelsRle).length ≠ q.resultW * q.resultH →
      decodeAlgoPayload q = .error .pixelCountMismatch) ∧
    (∀ (q : AlgoPayload) (pal : List (Nat × Nat × Nat)) (ar : List (Int × Int)),
      (q.schema = some "IMG-ALGO-LOSSY v2".toList ∨
        q.schema = some "IMG-ALGO-LOSSY v1".toList) →
      (rleDecode q.pixelsRle).length = q.resultW * q.resultH →
      parsePalette q.paletteHex = some pal →
      q.alphaRle = some ar → ar ≠ [] →
      (rleDecode ar).length ≠ q.resultW * q.resultH →
      decodeAlgoPayload q = .error .alphaLengthMismatch) := by
  have hfield : p.pixelsRle = rleEncode inp.idxs := by
    rw [hp]
    rfl
  have hfa : p.alphaRle =
      if inp.hasAlpha then some (rleEncode inp.alphaData) else none := by
    rw [hp]
    rfl
  refine ⟨?_, ?_, ?_, ?_, ?_⟩
  · rw [hfield, sum_counts_rleEncode, hpix]
  · intro q hq
    obtain ⟨c, v⟩ := q
    rw [hfield] at hq
    exact hidx v (mem_of_mem_rleEncode hq)
  · intro A hA
    rw [hfa] at hA
    cases hh : inp.hasAlpha with
    | false =>
      rw [hh] at hA
      simp at hA
    | true =>
      rw [hh] at hA
      simp only [if_true, ite_true, Option.some.injEq] at hA
      rw [← hA, sum_counts_rleEncode, halpha hh]
  · intro q hs hne
    exact decodeAlgoPayload_pixel_mismatch q hs hne
  · intro q pal ar hs hlen hpal har hne0 hna
    exact decodeAlgoPayload_alpha_mismatch q hs hlen hpal har hne0 hna

/-- Witness for C3 at a 2×2 image with a two-entry palette and an alpha
channel. -/
theorem claim_C3_witness :
    ∃ p, p = encodeAlgoPayload
        ⟨2, 2, true, 0, 0, [(1, 2, 3), (4, 5, 6)], [0, 1, 1, 0],
          [255, 255, 255, 255]⟩ true 4 ∧
      ((p.pixelsRle.map (fun q => q.1)).sum =
        ((p.resultW * p.resultH : Nat) : Int)) ∧
      (∀ A, p.alphaRle = some A →
        (A.map (fun q => q.1)).sum = ((p.resultW * p.resultH : Nat) : Int)) :=
  ⟨_, rfl,
    (claim_C3_pixel_conservation _ true 4 _ rfl (by decide) (by decide)
      (by decide)).1,
    (claim_C3_pixel_conservation _ true 4 _ rfl (by decide) (by decide)
      (by decide)).2.2.1⟩

/-- The PIL inputs of the single-color 100×100 scenario: the quantizer
returns a one-entry palette and an all-zero index buffer. -/
def singleColorInput (r g b : Nat) : AlgoEncInput :=
  ⟨100, 100, false, 100, 100, [(r, g, b)], List.replicate 10000 0, []⟩

/-- C6 — Single-color scenario: encoding a single-color 100×100 image
with `palette_size = 4` and `lock_dims = True` yields
`palette_size_actual = 1` (the realized palette is smaller than
requested), `pixels_rle = [[10000, 0]]`, locked 100×100 result
dimensions, and decoding the payload rebuilds exactly the uniform
100×100 image in that color with no alpha channel. -/
theorem claim_C6_single_color (r g b : Nat)
    (hr : r < 256) (hg : g < 256) (hb : b < 256) :
    (encodeAlgoPayload (singleColorInput r g b) true 4).paletteSizeActual = 1 ∧
    (encodeAlgoPayload (singleColorInput r g b) true 4).pixelsRle =
      [((10000 : Int), 0)] ∧
    (encodeAlgoPayload (singleColorInput r g b) true 4).resultW = 100 ∧
    (encodeAlgoPayload (singleColorInput r g b) true 4).resultH = 100 ∧
    decodeAlgoPayload (encodeAlgoPayload (singleColorInput r g b) true 4) =
      .ok ⟨100, 100, List.replicate 10000 (r, g, b), none⟩ := by
  have hrle : rleEncode (List.replicate 10000 (0 : Int)) = [((10000 : Int), 0)] := by
    have h := rleEncode_replicate 0 10000 (by omega) (by norm_num)
    rw [h]
    norm_num
  have hfield : (encodeAlgoPayload (singleColorInput r g b) true 4).pixelsRle =
      rleEncode (List.replicate 10000 (0 : Int)) := by
    simp only [encodeAlgoPayload, singleColorInput]
  refine ⟨rfl, by rw [hfield, hrle], rfl, rfl, ?_⟩
  have hschema : (encodeAlgoPayload (singleColorInput r g b) true 4).schema =
      some "IMG-ALGO-LOSSY v2".toList := rfl
  rw [decodeAlgoPayload, if_pos (Or.inl hschema)]
  have hdec : rleDecode
      ((encodeAlgoPayload (singleColorInput r g b) true 4).pixelsRle) =
      List.replicate 10000 (0 : Int) := by
    rw [hfield, hrle, rleDecode_cons]
    have h1 : ((10000 : Int)).toNat = 10000 := rfl
    have h2 : rleDecode ([] : List (Int × Int)) = [] := rfl
    rw [h1, h2, List.append_nil]
  have hpal : parsePalette
      ((encodeAlgoPayload (singleColorInput r g b) true 4).paletteHex) =
      some [(r, g, b)] := by
    show parsePalette ['#' :: (toHex2U r ++ toHex2U g ++ toHex2U b)] = _
    simp only [parsePalette, parseHexColor_hash_toHex2U r g b hr hg hb]
  have hw : (encodeAlgoPayload (singleColorInput r g b) true 4).resultW = 100 := rfl
  have hht : (encodeAlgoPayload (singleColorInput r g b) true 4).resultH = 100 := rfl
  have hlen : ¬(List.replicate 10000 (0 : Int)).length ≠
      (encodeAlgoPayload (singleColorInput r g b) true 4).resultW *
        (encodeAlgoPayload (singleColorInput r g b) true 4).resultH := by
    rw [List.length_replicate, hw, hht]
    omega
  simp only [hdec, if_neg hlen, hpal, List.map_replicate]
  rfl

/-- Witness for C6 at color `(10, 20, 30)`. -/
theorem claim_C6_witness :
    (encodeAlgoPayload (singleColorInput 10 20 30) true 4).paletteSizeActual = 1 ∧
    (encodeAlgoPayload (singleColorInput 10 20 30) true 4).pixelsRle =
      [((10000 : Int), 0)] ∧
    (encodeAlgoPayload (singleColorInput 10 20 30) true 4).resultW = 100 ∧
    (encodeAlgoPayload (singleColorInput 10 20 30) true 4).resultH = 100 ∧
    decodeAlgoPayload (encodeAlgoPayload (singleColorInput 10 20 30) true 4) =
      .ok ⟨100, 100, List.replicate 10000 (10, 20, 30), none⟩ :=
  claim_C6_single_color 10 20 30 (by decide) (by decide) (by decide)

/-! ## Lossy-description (NLP) tier: payload model

`decode_lossy_nlp_text_to_proxy_image` after the JSON stage.  The proxy
image is modelled by the sequence of rectangle fills the decoder issues:
four quadrant fills and a bottom row of dominant-color swatches. -/

/-- The JSON payload fields read by the NLP-tier decoder. -/
structure NlpPayload where
  schema : Option (List Char)
  renderW : Nat
  renderH : Nat
  quadrantsHex : List (List Char × List Char)
  dominantHex : List (List Char)
  deriving Repr, DecidableEq

/-- The deterministic proxy rendering: quadrant fills then swatch fills,
each a box with an RGB color. -/
structure NlpProxy where
  width : Nat
  height : Nat
  quadFills : List ((Nat × Nat × Nat × Nat) × (Nat × Nat × Nat))
  swatchFills : List ((Nat × Nat × Nat × Nat) × (Nat × Nat × Nat))
  deriving Repr, DecidableEq

inductive NlpErr where
  | unsupportedSchema
  | badColorHex
  deriving Repr, DecidableEq

/-- `quads_hex.get(name, "#CCCCCC")`: dictionary lookup with default. -/
def quadColorHex (qs : List (List Char × List Char)) (name : List Char) :
    List Char :=
  match qs.find? (fun q => q.1 = name) with
  | some q => q.2
  | none => "#CCCCCC".toList

/-- The quadrant fill loop: for each box of `quad_boxes`, parse the
looked-up color and fill (a bad hex literal raises). -/
def nlpQuadFills (qs : List (List Char × List Char)) :
    List (List Char × (Nat × Nat × Nat × Nat)) →
    Option (List ((Nat × Nat × Nat × Nat) × (Nat × Nat × Nat)))
  | [] => some []
  | (name, box) :: rest =>
    match parseHexColor (quadColorHex qs name), nlpQuadFills qs rest with
    | some col, some l => some ((box, col) :: l)
    | _, _ => none

/-- The swatch loop: starting at `x = 0`, each dominant color fills
`(x, y0, x + sw, H)` and advances `x` by `sw`. -/
def nlpSwatchFills (y0 sw hgt : Nat) :
    Nat → List (List Char) →
    Option (List ((Nat × Nat × Nat × Nat) × (Nat × Nat × Nat)))
  | _, [] => some []
  | x, s :: rest =>
    match parseHexColor s, nlpSwatchFills y0 sw hgt (x + sw) rest with
    | some col, some l => some (((x, y0, x + sw, hgt), col) :: l)
    | _, _ => none

/-- `decode_lossy_nlp_text_to_proxy_image` after the JSON stage: schema
gate, quadrant fills over `quad_boxes`, then — when the truncated
dominant list `dom = dominant_hex[:8]` is non-empty — swatches of width
`max(10, W // len(dom))` along the bottom edge (`y0 = max(0, H - sw)`). -/
def decodeNlpPayload (p : NlpPayload) : Except NlpErr NlpProxy :=
  if p.schema = some "LOSSY-IMAGE-DESCRIPTION v2".toList ∨
      p.schema = some "LOSSY-IMAGE-DESCRIPTION v1".toList then
    let dom := p.dominantHex.take 8
    match nlpQuadFills p.quadrantsHex (nlpDecodeQuadBoxes p.renderW p.renderH) with
    | none => .error .badColorHex
    | some qf =>
      if dom ≠ [] then
        let sw := max 10 (p.renderW / dom.length)
        match nlpSwatchFills (p.renderH - sw) sw p.renderH 0 dom with
        | none => .error .badColorHex
        | some sf => .ok ⟨p.renderW, p.renderH, qf, sf⟩
      else .ok ⟨p.renderW, p.renderH, qf, []⟩
  else .error .unsupportedSchema

theorem decodeNlpPayload_schema_iff (p : NlpPayload) :
    decodeNlpPayload p ≠ .error .unsupportedSchema ↔
      (p.schema = some "LOSSY-IMAGE-DESCRIPTION v2".toList ∨
        p.schema = some "LOSSY-IMAGE-DESCRIPTION v1".toList) := by
  constructor
  · intro h
    by_contra hs
    exact h (by rw [decodeNlpPayload, if_neg hs])
  · intro hs hcontra
    rw [decodeNlpPayload, if_pos hs] at hcontra
    cases hq : nlpQuadFills p.quadrantsHex
        (nlpDecodeQuadBoxes p.renderW p.renderH) with
    | none =>
      simp only [hq] at hcontra
      exact absurd hcontra (by simp)
    | some qf =>
      simp only [hq] at hcontra
      by_cases hd : p.dominantHex.take 8 = []
      · rw [if_neg (by simp [hd])] at hcontra
        exact absurd hcontra (by simp)
      · rw [if_pos hd] at hcontra
        cases hsw : nlpSwatchFills
            (p.renderH - max 10 (p.renderW / (p.dominantHex.take 8).length))
            (max 10 (p.renderW / (p.dominantHex.take 8).length)) p.renderH 0
            (p.dominantHex.take 8) with
        | none =>
          rw [hsw] at hcontra
          exact absurd hcontra (by simp)
        | some sf =>
          rw [hsw] at hcontra
          exact absurd hcontra (by simp)

/-- C9 — Schema-tag validation: the lossy-algo decoder gets past the
schema gate exactly when the payload's schema tag is
`IMG-ALGO-LOSSY v2` or `IMG-ALGO-LOSSY v1`, and the lossy-description
decoder exactly when it is `LOSSY-IMAGE-DESCRIPTION v2` or
`LOSSY-IMAGE-DESCRIPTION v1`; any other or missing tag makes the decode
fail with the unsupported-schema error. -/
theorem claim_C9_schema_tags :
    (∀ p : AlgoPayload,
      decodeAlgoPayload p ≠ .error .unsupportedSchema ↔
        (p.schema = some "IMG-ALGO-LOSSY v2".toList ∨
          p.schema = some "IMG-ALGO-LOSSY v1".toList)) ∧
    (∀ p : NlpPayload,
      decodeNlpPayload p ≠ .error .unsupportedSchema ↔
        (p.schema = some "LOSSY-IMAGE-DESCRIPTION v2".toList ∨
          p.schema = some "LOSSY-IMAGE-DESCRIPTION v1".toList)) :=
  ⟨decodeAlgoPayload_schema_iff, decodeNlpPayload_schema_iff⟩

/-- Witness for C9: a bogus tag and a missing tag are both rejected. -/
theorem claim_C9_witness :
    decodeAlgoPayload ⟨some "BOGUS".toList, 1, 1, [], 0, 1, [(1, 0)], none⟩ =
      .error .unsupportedSchema ∧
    decodeNlpPayload ⟨none, 1, 1, [], []⟩ = .error .unsupportedSchema := by
  constructor
  · have h := claim_C9_schema_tags.1
      ⟨some "BOGUS".toList, 1, 1, [], 0, 1, [(1, 0)], none⟩
    exact not_ne_iff.mp (fun hne => by
      rcases h.mp hne with hc | hc <;> exact absurd hc (by decide))
  · have h := claim_C9_schema_tags.2 ⟨none, 1, 1, [], []⟩
    exact not_ne_iff.mp (fun hne => by
      rcases h.mp hne with hc | hc <;> exact absurd hc (by decide))

/-! ## Tier sniffing (`_sniff_text_mode` in `main.py`)

`head` is the first four lines of the stripped text re-joined with
newlines.  Three literal header tests pick the tier; a fallback regex is
run against `json.dumps(head)`; otherwise an HTTP 400 is raised.  The
JSON escaping (`ensure_ascii=True`) is modelled for the basic
multilingual plane. -/

/-- Four lowercase hex digits (the `\\uXXXX` escape of `json.dumps`). -/
def toHex4 (n : Nat) : List Char :=
  [hexChar (n / 16 ^ 3), hexChar (n / 16 ^ 2), hexChar (n / 16), hexChar n]

/-- Escape of a single character in `json.dumps` output
(`ensure_ascii=True`). -/
def jsonEscapeChar (c : Char) : List Char :=
  if c = '"' then ['\\', '"']
  else if c = '\\' then ['\\', '\\']
  else if c = '\n' then ['\\', 'n']
  else if c = '\r' then ['\\', 'r']
  else if c = '\t' then ['\\', 't']
  else if c = '\x08' then ['\\', 'b']
  else if c = '\x0c' then ['\\', 'f']
  else if c.toNat < 32 ∨ 127 ≤ c.toNat then '\\' :: 'u' :: toHex4 (c.toNat % 65536)
  else [c]

/-- `json.dumps(head)` for a string: wrapping quotes around the escaped
characters. -/
def jsonDumps (s : List Char) : List Char :=
  '"' :: (s.flatMap jsonEscapeChar ++ ['"'])

/-- The fallback pattern anchored at the start of `l`:
literal `"schema"`, then `\s*`, `:`, `\s*`, then the literal quoted
description tag (greedy whitespace consumption is exact here because
neither `:` nor `"` is whitespace). -/
def schemaTagAt (l : List Char) : Bool :=
  if "\"schema\"".toList.isPrefixOf l then
    match (l.drop 8).dropWhile isPySpace with
    | ':' :: r2 =>
      "\"LOSSY-IMAGE-DESCRIPTION v2\"".toList.isPrefixOf (r2.dropWhile isPySpace)
    | _ => false
  else false

/-- `re.search` of the fallback pattern: try every start position. -/
def searchSchemaTag : List Char → Bool
  | [] => schemaTagAt []
  | c :: r => schemaTagAt (c :: r) || searchSchemaTag r

/-- The three decode tiers selected by `_sniff_text_mode`. -/
inductive SniffMode where
  | lossless
  | lossyAlgo
  | lossyNlp
  deriving Repr, DecidableEq

/-- `head = "\n".join(txt.strip().splitlines()[:4])`. -/
def sniffHead (txt : List Char) : List Char :=
  joinNl ((splitPhysLines (pyStrip txt)).take 4)

/-- `_sniff_text_mode`: the three literal header tests, the fallback
regex over `json.dumps(head)`, and the HTTP 400 detail string on
failure. -/
def sniffTextMode (txt : List Char) : Except (List Char) SniffMode :=
  if occursIn "LOSSLESS MANIFEST v2".toList (sniffHead txt) then .ok .lossless
  else if occursIn "LOSSY-ALGO MANIFEST v2".toList (sniffHead txt) then
    .ok .lossyAlgo
  else if occursIn "LOSSY-NLP DESCRIPTION v2".toList (sniffHead txt) then
    .ok .lossyNlp
  else if searchSchemaTag (jsonDumps (sniffHead txt)) then .ok .lossyNlp
  else .error "Unrecognized text schema. Expected v2 headers.".toList

/-- C8 — Tier sniffing rejects unrecognized input: when none of the
three literal tier headers occurs in the first four stripped lines and
the description-schema-tag fallback does not match, `_sniff_text_mode`
fails with the unrecognized-schema error and no tier decode is ever
selected. -/
theorem claim_C8_unrecognized_rejected (txt : List Char)
    (h1 : occursIn "LOSSLESS MANIFEST v2".toList (sniffHead txt) = false)
    (h2 : occursIn "LOSSY-ALGO MANIFEST v2".toList (sniffHead txt) = false)
    (h3 : occursIn "LOSSY-NLP DESCRIPTION v2".toList (sniffHead txt) = false)
    (h4 : searchSchemaTag (jsonDumps (sniffHead txt)) = false) :
    sniffTextMode txt =
      .error "Unrecognized text schema. Expected v2 headers.".toList ∧
    ∀ m : SniffMode, sniffTextMode txt ≠ .ok m := by
  have he : sniffTextMode txt =
      .error "Unrecognized text schema. Expected v2 headers.".toList := by
    rw [sniffTextMode, if_neg (by simp only [h1]; decide),
      if_neg (by simp only [h2]; decide), if_neg (by simp only [h3]; decide),
      if_neg (by simp only [h4]; decide)]
  refine ⟨he, fun m hm => ?_⟩
  rw [he] at hm
  exact absurd hm (by simp)

/-- Witness for C8: the empty string and plain prose are both rejected. -/
theorem claim_C8_witness :
    sniffTextMode [] =
      .error "Unrecognized text schema. Expected v2 headers.".toList ∧
    sniffTextMode "hello world\nthis is plain prose".toList =
      .error "Unrecognized text schema. Expected v2 headers.".toList :=
  ⟨(claim_C8_unrecognized_rejected [] (by decide) (by decide) (by decide)
      (by decide)).1,
    (claim_C8_unrecognized_rejected "hello world\nthis is plain prose".toList
      (by decide) (by decide) (by decide) (by decide)).1⟩
